import Mathlib

/-!
Buffered line scanner of `examples/01_read_file`, with the generic functions of
`examples/04_generic` and the slice demonstration of `basic/slice`.

A shallow embedding of `custom_scanner.go` and `debug_scanner.go`, of
`FindIndex`, `Sum` and `Stack` and of the slice statements of `main`, followed
by the properties that the specification and the code state.

Conventions of the embedding.

* A Go `[]byte` is a `List UInt8`; a Go `string` returned by `Line` is the list
  of its bytes.
* Go `int` fields are `Int`.  The only arithmetic on them is `position++`,
  executed under the guard `position < tokenSize`, so it cannot overflow a
  64-bit `int`; no wrap-around is modelled.
* An `io.Reader` is a state type `ρ` together with a `Read` function that
  receives the reader state and the slice contents and returns the new reader
  state, the slice contents after the call, the count `n` and the error.
* A run-time panic (index out of range) is an explicit outcome.
-/

namespace ReadFile

/-- A Go `byte`. -/
abbrev Byte := UInt8

/-- The byte `'\n'`. -/
def newline : Byte := 10

/-- What one call `Read(p)` of an `io.Reader` produces: the reader's own state
after the call, the contents of `p` after the call, and the two results
`n` and `err` (`none` is Go's `nil`). -/
structure ReadResult (ρ : Type) where
  reader : ρ
  p : List Byte
  n : Int
  err : Option String

/-- An `io.Reader` with internal state `ρ`.  The callee receives the slice by
value, so it can overwrite its elements and cannot change its length. -/
structure Reader (ρ : Type) where
  Read : ρ → List Byte → ReadResult ρ
  Read_length : ∀ (r : ρ) (p : List Byte), (Read r p).p.length = p.length

/-- The struct `CustomScanner` of `custom_scanner.go`. -/
structure CustomScanner (ρ : Type) where
  reader : ρ
  buffer : List Byte
  position : Int
  tokenSize : Int

/-- The result of one `Scan` call: the returned boolean, the scanner after the
call, and the number of `reader.Read` calls the body performed. -/
structure ScanResult (ρ : Type) where
  ok : Bool
  scanner : CustomScanner ρ
  reads : Nat

/-- How a call of `Line` ends. `outOfFuel` is an artefact of the bounded loop of
the embedding and is shown never to occur. -/
inductive LineStatus where
  | returned (line : List Byte)
  | panicked
  | outOfFuel
  deriving DecidableEq

/-- The result of one `Line` call: how it ended and the scanner afterwards. -/
structure LineResult (ρ : Type) where
  status : LineStatus
  scanner : CustomScanner ρ

/-- Go's `make([]byte, n)`: `n` zero bytes. -/
def makeBytes (n : Nat) : List Byte := List.replicate n 0

/-- Go's index expression `buffer[i]` for an `int` index: `none` is the
index-out-of-range panic. -/
def index (buffer : List Byte) (i : Int) : Option Byte :=
  if i < 0 then none else buffer[i.toNat]?

/-- Go's slice expression `buffer[a:b]` for in-range bounds. -/
def slice (buffer : List Byte) (a b : Nat) : List Byte :=
  (buffer.take b).drop a

/-- The constructor `NewCustomScanner`. -/
def NewCustomScanner {ρ : Type} (reader : ρ) : CustomScanner ρ :=
  { reader := reader, buffer := makeBytes 4096, position := 0, tokenSize := 0 }

/-- A method call on a scanner. -/
inductive Call where
  | scan
  | line
  deriving DecidableEq

namespace CustomScanner

variable {ρ : Type}

/-- The method `CustomScanner.Scan`. -/
def Scan (R : Reader ρ) (s : CustomScanner ρ) : ScanResult ρ :=
  if s.position ≥ s.tokenSize then
    let res := R.Read s.reader s.buffer
    let s1 : CustomScanner ρ := { s with reader := res.reader, buffer := res.p }
    if res.err.isSome then
      { ok := false, scanner := s1, reads := 1 }
    else
      let s2 : CustomScanner ρ := { s1 with position := 0, tokenSize := res.n }
      { ok := decide (s2.tokenSize > 0), scanner := s2, reads := 1 }
  else
    { ok := decide (s.tokenSize > 0), scanner := s, reads := 0 }

/-- The `for s.position < s.tokenSize` loop of `Line`, at most `fuel`
iterations; `line` is the `bytes.Buffer` built so far. -/
def lineLoop : Nat → CustomScanner ρ → List Byte → LineResult ρ
  | 0, s, line =>
    if s.position < s.tokenSize then
      { status := .outOfFuel, scanner := s }
    else
      { status := .returned line, scanner := s }
  | fuel + 1, s, line =>
    if s.position < s.tokenSize then
      match index s.buffer s.position with
      | none => { status := .panicked, scanner := s }
      | some b =>
        let s1 : CustomScanner ρ := { s with position := s.position + 1 }
        if b = newline then
          { status := .returned line, scanner := s1 }
        else
          lineLoop fuel s1 (line ++ [b])
    else
      { status := .returned line, scanner := s }

/-- The method `CustomScanner.Line`. The loop runs at most
`tokenSize - position` times, which is the fuel given to it. -/
def Line (s : CustomScanner ρ) : LineResult ρ :=
  lineLoop (s.tokenSize - s.position).toNat s []

/-- The state invariant `0 ≤ position ≤ tokenSize ≤ len(buffer)`. -/
def Inv (s : CustomScanner ρ) : Prop :=
  0 ≤ s.position ∧ s.position ≤ s.tokenSize ∧ s.tokenSize ≤ (s.buffer.length : Int)

instance (s : CustomScanner ρ) : Decidable (Inv s) := by
  unfold Inv; infer_instance

/-- The bytes the `Line` call that led from `before` to `after` consumed:
`buffer[before.position : after.position]`. -/
def consumed (before after : CustomScanner ρ) : List Byte :=
  slice before.buffer before.position.toNat after.position.toNat

/-- One `Line` call of the usage loop as the caller observes it: the returned
string and the bytes the call consumed from the buffer. -/
structure LineCall where
  line : List Byte
  consumed : List Byte
  deriving DecidableEq

/-- How the usage loop ends. -/
inductive LoopStatus where
  | finished (calls : List LineCall)
  | panicked
  | outOfFuel
  deriving DecidableEq

/-- The usage loop `for scanner.Scan() { line := scanner.Line(); ... }`, at most
`fuel` evaluations of the loop condition; `calls` are the `Line` calls made
so far. -/
def usageLoop (R : Reader ρ) : Nat → CustomScanner ρ → List LineCall → LoopStatus × CustomScanner ρ
  | 0, s, _ => (.outOfFuel, s)
  | fuel + 1, s, calls =>
    let r := Scan R s
    if r.ok then
      let l := Line r.scanner
      match l.status with
      | .returned line =>
        usageLoop R fuel l.scanner (calls ++ [{ line := line, consumed := consumed r.scanner l.scanner }])
      | .panicked => (.panicked, l.scanner)
      | .outOfFuel => (.outOfFuel, l.scanner)
    else
      (.finished calls, r.scanner)

/-- What a caller rebuilds from one `Line` call: the returned string, followed
by the terminator exactly when the call consumed one. -/
def LineCall.restore (c : LineCall) : List Byte :=
  c.line ++ (if newline ∈ c.consumed then [newline] else [])

/-- The byte stream rebuilt from all `Line` calls of a loop. -/
def reassemble (calls : List LineCall) : List Byte :=
  (calls.map LineCall.restore).flatten

/-- The booleans returned by the `Scan` calls of a sequence of method calls made
on one scanner, in order. A panic in `Line` ends the program, hence the
sequence. -/
def scanResults (R : Reader ρ) : List Call → CustomScanner ρ → List Bool
  | [], _ => []
  | .scan :: rest, s => (Scan R s).ok :: scanResults R rest (Scan R s).scanner
  | .line :: rest, s =>
    match (Line s).status with
    | .returned _ => scanResults R rest (Line s).scanner
    | _ => []

/-- The states a program can reach from `NewCustomScanner` by `Scan` and `Line`
calls that return. -/
inductive Reachable (R : Reader ρ) : CustomScanner ρ → Prop where
  | init (reader : ρ) : Reachable R (NewCustomScanner reader)
  | scan {s : CustomScanner ρ} : Reachable R s → Reachable R (Scan R s).scanner
  | line {s : CustomScanner ρ} {out : List Byte} :
      Reachable R s → (Line s).status = .returned out → Reachable R (Line s).scanner

end CustomScanner

/-! ## Byte sources -/

/-- The sentinel error `io.EOF`. -/
def ioEOF : String := "EOF"

/-- Go's builtin `copy(dst, src)`: the contents of `dst` afterwards and the
number of bytes copied, `min(len(dst), len(src))`. -/
def copy (dst src : List Byte) : List Byte × Nat :=
  (src.take dst.length ++ dst.drop src.length, min dst.length src.length)

/-- The state of a `strings.Reader`: the string and the read index. -/
structure StringsReader where
  s : List Byte
  i : Nat
  deriving DecidableEq

/-- The standard library's `strings.NewReader`. -/
def stringsNewReader (s : List Byte) : StringsReader := { s := s, i := 0 }

/-- The standard library's `(*strings.Reader).Read`: at the end of the string
it returns `0, io.EOF`; otherwise it copies `s[i:]` into `b`, advances `i` by
the number of bytes copied and returns that number with a nil error. -/
def StringsReader.Read (r : StringsReader) (b : List Byte) : ReadResult StringsReader :=
  if r.i ≥ r.s.length then
    { reader := r, p := b, n := 0, err := some ioEOF }
  else
    let c := copy b (r.s.drop r.i)
    { reader := { r with i := r.i + c.2 }, p := c.1, n := (c.2 : Int), err := none }

/-- A `*strings.Reader` as an `io.Reader`. -/
def stringsReader : Reader StringsReader where
  Read := StringsReader.Read
  Read_length := by
    intro r p
    unfold StringsReader.Read
    split
    · rfl
    · simp only [copy, List.length_append, List.length_take, List.length_drop]
      omega

/-- One scripted `Read` result: the bytes offered and the error returned with
them. -/
structure Fill where
  data : List Byte
  err : Option String
  deriving DecidableEq

/-- A scripted `io.Reader`, as a test would write it: each `Read` takes the next
entry of the script, copies its bytes into `p` and returns the count copied
together with the entry's error; after the script it returns `0, io.EOF`. -/
def scriptRead (script : List Fill) (p : List Byte) : ReadResult (List Fill) :=
  match script with
  | [] => { reader := [], p := p, n := 0, err := some ioEOF }
  | f :: rest =>
    let c := copy p f.data
    { reader := rest, p := c.1, n := (c.2 : Int), err := f.err }

/-- The scripted reader as an `io.Reader`. -/
def scriptReader : Reader (List Fill) where
  Read := scriptRead
  Read_length := by
    intro r p
    unfold scriptRead
    split
    · rfl
    · simp only [copy, List.length_append, List.length_take, List.length_drop]
      omega

/-- A slice after a source wrote one line over all of it: `'a'` in every
position but the last, which holds `'\n'`. -/
def lineFill : List Byte → List Byte
  | [] => []
  | _ :: rest => rest.map (fun _ => 97) ++ [newline]

/-- The `Read` of a source that breaks the contract `0 ≤ n ≤ len(p)` of
`io.Reader`: it writes one line over the whole slice and reports one byte
more than the slice holds, with a nil error. -/
def overReport (_ : Unit) (p : List Byte) : ReadResult Unit :=
  { reader := (), p := lineFill p, n := (p.length : Int) + 1, err := none }

/-- The over-reporting source as an `io.Reader`. -/
def overReporter : Reader Unit where
  Read := overReport
  Read_length := by
    intro r p
    cases p <;> simp [overReport, lineFill]

/-- The bytes of an ASCII string literal. -/
def ascii (s : String) : List Byte := s.toList.map (fun c => UInt8.ofNat c.toNat)

/-! ## The debugging variant `debug_scanner.go`

`DebugScanner` has the fields of `CustomScanner` with the reader fixed to a
`*strings.Reader` and a buffer of 10 bytes. Its methods print the state to
standard output; the printing is not part of the embedding. -/

/-- The struct `DebugScanner`. -/
abbrev DebugScanner := CustomScanner StringsReader

/-- The constructor `NewDebugScanner`. -/
def NewDebugScanner (content : List Byte) : DebugScanner :=
  { reader := stringsNewReader content, buffer := makeBytes 10, position := 0, tokenSize := 0 }

namespace DebugScanner

/-- The method `DebugScanner.Scan`. -/
def Scan (s : DebugScanner) : ScanResult StringsReader :=
  if s.position ≥ s.tokenSize then
    let res := s.reader.Read s.buffer
    let s1 : DebugScanner := { s with reader := res.reader, buffer := res.p }
    if res.err.isSome then
      { ok := false, scanner := s1, reads := 1 }
    else
      let s2 : DebugScanner := { s1 with position := 0, tokenSize := res.n }
      { ok := decide (s2.tokenSize > 0), scanner := s2, reads := 1 }
  else
    { ok := decide (s.tokenSize > 0), scanner := s, reads := 0 }

/-- The loop of `DebugScanner.Line`, at most `fuel` iterations; `line` is the
`strings.Builder` built so far. -/
def lineLoop : Nat → DebugScanner → List Byte → LineResult StringsReader
  | 0, s, line =>
    if s.position < s.tokenSize then
      { status := .outOfFuel, scanner := s }
    else
      { status := .returned line, scanner := s }
  | fuel + 1, s, line =>
    if s.position < s.tokenSize then
      match index s.buffer s.position with
      | none => { status := .panicked, scanner := s }
      | some b =>
        let s1 : DebugScanner := { s with position := s.position + 1 }
        if b = newline then
          { status := .returned line, scanner := s1 }
        else
          lineLoop fuel s1 (line ++ [b])
    else
      { status := .returned line, scanner := s }

/-- The method `DebugScanner.Line`. -/
def Line (s : DebugScanner) : LineResult StringsReader :=
  lineLoop (s.tokenSize - s.position).toNat s []

/-- The loop `for scanner.Scan() { line := scanner.Line(); ... }` of the
commented-out `main`, at most `fuel` evaluations of the loop condition;
`lines` are the strings returned so far. `none` is a run that panics or
exceeds the fuel. -/
def mainLoop : Nat → DebugScanner → List (List Byte) → Option (List (List Byte))
  | 0, _, _ => none
  | fuel + 1, s, lines =>
    let r := Scan s
    if r.ok then
      let l := Line r.scanner
      match l.status with
      | .returned line => mainLoop fuel l.scanner (lines ++ [line])
      | _ => none
    else
      some lines

/-- The scanner after a sequence of method calls, whatever they return. -/
def after : List Call → DebugScanner → DebugScanner
  | [], s => s
  | .scan :: rest, s => after rest (Scan s).scanner
  | .line :: rest, s => after rest (Line s).scanner

end DebugScanner

/-! ## Notions used to state the properties -/

/-- What the loop of `Line` does to the unread window `w` of the buffer, as a
function on lists: the bytes appended to the line and the number of bytes
consumed. -/
def cut : List Byte → List Byte × Nat
  | [] => ([], 0)
  | b :: w => if b = newline then ([], 1) else (b :: (cut w).1, (cut w).2 + 1)

namespace CustomScanner

variable {ρ : Type}

/-- The unread window `buffer[position:tokenSize]`. -/
def window (s : CustomScanner ρ) : List Byte :=
  slice s.buffer s.position.toNat s.tokenSize.toNat

/-- Once a `Scan` call of the sequence has returned false, every later one has
returned false. -/
def ScanStaysFalse (results : List Bool) : Prop :=
  results.Pairwise (fun earlier later => earlier = false → later = false)

instance (results : List Bool) : Decidable (ScanStaysFalse results) := by
  unfold ScanStaysFalse; infer_instance

end CustomScanner

/-- A `Read` result after which `Scan` returns false: an error, or no bytes. -/
def Failing {ρ : Type} (res : ReadResult ρ) : Prop :=
  res.err.isSome = true ∨ res.n ≤ 0

/-- The reader state after the successive calls `Read(p)` for `p` in `ps`. -/
def readerAfter {ρ : Type} (R : Reader ρ) (r : ρ) (ps : List (List Byte)) : ρ :=
  ps.foldl (fun r p => (R.Read r p).reader) r

/-- From reader state `r` on, every `Read` into a non-empty slice fails. -/
def Exhausted {ρ : Type} (R : Reader ρ) (r : ρ) : Prop :=
  ∀ (ps : List (List Byte)) (p : List Byte), (∀ q ∈ ps, q ≠ []) → p ≠ [] →
    Failing (R.Read (readerAfter R r ps) p)

/-- The state in which `Scan` can only fail: the window is empty, the buffer is
not, and the byte source is exhausted. -/
def CustomScanner.Terminal {ρ : Type} (R : Reader ρ) (s : CustomScanner ρ) : Prop :=
  s.tokenSize ≤ s.position ∧ s.buffer ≠ [] ∧ Exhausted R s.reader

/-- A byte source whose failures are permanent: once a `Read` into a non-empty
slice has reported an error or no bytes, every later such `Read` does too. -/
def Sticky {ρ : Type} (R : Reader ρ) : Prop :=
  ∀ (r : ρ) (p : List Byte), p ≠ [] → Failing (R.Read r p) → Exhausted R (R.Read r p).reader

/-- A `Read` that reports a count within the slice: `0 ≤ n ≤ len(p)`. -/
def InRange {ρ : Type} (R : Reader ρ) : Prop :=
  ∀ (r : ρ) (p : List Byte), 0 ≤ (R.Read r p).n ∧ (R.Read r p).n ≤ (p.length : Int)

/-- What a `*strings.Reader` has yet to deliver: `s[i:]`. -/
def StringsReader.rest (r : StringsReader) : List Byte := r.s.drop r.i

/-- A byte source that hands out a byte stream in successive fills, where
`stream r` is what the source in state `r` has yet to deliver: at the end
of the stream a `Read` returns 0 bytes and an error (end-of-data); before
it, a `Read` into a non-empty slice returns no error and a count `n` with
`1 ≤ n ≤ len(p)`, puts the next `n` bytes of the stream into `p[0:n]` and
keeps the rest of the stream for later. -/
structure Streams {ρ : Type} (R : Reader ρ) (stream : ρ → List Byte) : Prop where
  eof : ∀ (r : ρ) (p : List Byte), stream r = [] →
    (R.Read r p).n = 0 ∧ (R.Read r p).err.isSome = true
  fill : ∀ (r : ρ) (p : List Byte), stream r ≠ [] → p ≠ [] →
    (R.Read r p).err = none ∧ 1 ≤ (R.Read r p).n ∧ (R.Read r p).n ≤ (p.length : Int) ∧
    (R.Read r p).p.take (R.Read r p).n.toNat = (stream r).take (R.Read r p).n.toNat ∧
    stream (R.Read r p).reader = (stream r).drop (R.Read r p).n.toNat

end ReadFile

/-! ## Generic functions and the stack of `examples/04_generic/main.go`

A Go slice `[]T` is a `List T`. The zero value of `T` (`var zero T`) is the
`default` of `Inhabited T`. The operator `==` of a `comparable` type is a
`BEq` instance, which need not be reflexive (floating-point `NaN`). -/

namespace Generic

/-- The loop `for i, v := range slice` of `FindIndex`, from index `i` on. -/
def FindIndex.loop {T : Type} [BEq T] (value : T) : List T → Int → Int
  | [], _ => -1
  | v :: rest, i => if v == value then i else FindIndex.loop value rest (i + 1)

/-- The function `FindIndex`. -/
def FindIndex {T : Type} [BEq T] (slice : List T) (value : T) : Int :=
  FindIndex.loop value slice 0

/-- The value of a signed `w`-bit integer type that the mathematical integer
`x` wraps around to (two's complement). -/
def wrap (w : Nat) (x : Int) : Int :=
  (x + ((2 ^ (w - 1) : Nat) : Int)) % ((2 ^ w : Nat) : Int) - ((2 ^ (w - 1) : Nat) : Int)

/-- The loop `for _, v := range numbers { num += v }` of `Sum` for a signed
`w`-bit integer type. -/
def Sum.loop (w : Nat) : List Int → Int → Int
  | [], num => num
  | v :: rest, num => Sum.loop w rest (wrap w (num + v))

/-- The function `Sum`, instantiated at a signed `w`-bit integer type (`int32`:
`w = 32`; `int64` and `int`: `w = 64`). -/
def Sum (w : Nat) (numbers : List Int) : Int :=
  Sum.loop w numbers 0

/-- The struct `Stack[T]`. -/
structure Stack (T : Type) where
  items : List T

/-- The constructor `NewStack`. -/
def NewStack {T : Type} : Stack T := { items := [] }

/-- The results of `Pop`, `(T, error)` with `none` for a nil error, and the
stack afterwards. -/
structure PopResult (T : Type) where
  value : T
  err : Option String
  stack : Stack T

namespace Stack

variable {T : Type}

/-- The method `Stack.Push`. -/
def Push (s : Stack T) (item : T) : Stack T :=
  { items := s.items ++ [item] }

/-- The method `Stack.Pop`. -/
def Pop [Inhabited T] (s : Stack T) : PopResult T :=
  if h : s.items.length = 0 then
    { value := default, err := some "stack is empty", stack := s }
  else
    { value := s.items.get ⟨s.items.length - 1, by omega⟩,
      err := none,
      stack := { items := s.items.take (s.items.length - 1) } }

/-- The stack after `stack.Push(x)` for each `x` of `xs` in order. -/
def pushAll (s : Stack T) (xs : List T) : Stack T :=
  xs.foldl Push s

/-- The results of `n` successive `stack.Pop()` calls, and the stack after
them. -/
def popN [Inhabited T] : Nat → Stack T → List (T × Option String) × Stack T
  | 0, s => ([], s)
  | n + 1, s => (((Pop s).value, (Pop s).err) :: (popN n (Pop s).stack).1, (popN n (Pop s).stack).2)

end Stack

end Generic

/-! ## The slice demonstration of `basic/slice/main.go` -/

namespace SliceDemo

/-- Go's `make([]int, n)`. -/
def makeInts (n : Nat) : List Int := List.replicate n 0

/-- Go's builtin `append(s, elems...)`, as far as contents and length go. -/
def append (s elems : List Int) : List Int := s ++ elems

/-- The variable `nums1` as declared: `[]int{1, 2, 3, 4, 5}`. -/
def nums1 : List Int := [1, 2, 3, 4, 5]

/-- The variable `nums2`: `make([]int, 5)`. -/
def nums2 : List Int := makeInts 5

/-- The variable `nums1` after `nums1 = append(nums1, 6)`. -/
def nums1Appended : List Int := append nums1 [6]

/-- The variable `nums3`: `append(nums1, nums2...)`. -/
def nums3 : List Int := append nums1Appended nums2

end SliceDemo

namespace ReadFile

/-! ## Properties of `Line` -/

theorem makeBytes_length (n : Nat) : (makeBytes n).length = n := by
  simp [makeBytes]

theorem slice_of_le (buf : List Byte) {a b : Nat} (h : b ≤ a) : slice buf a b = [] := by
  simp only [slice, List.drop_eq_nil_iff, List.length_take]
  omega

theorem slice_cons (buf : List Byte) {a b : Nat} (hab : a < b) (hb : b ≤ buf.length) :
    slice buf a b = buf[a] :: slice buf (a + 1) b := by
  have hlen : a < (buf.take b).length := by
    simp only [List.length_take]; omega
  unfold slice
  rw [List.drop_eq_getElem_cons hlen, List.getElem_take]

theorem slice_getElem? (buf : List Byte) (a b i : Nat) :
    (slice buf a b)[i]? = if a + i < b then buf[a + i]? else none := by
  unfold slice
  rw [List.getElem?_drop, List.getElem?_take]

theorem slice_length (buf : List Byte) {a b : Nat} (hb : b ≤ buf.length) :
    (slice buf a b).length = b - a := by
  simp only [slice, List.length_drop, List.length_take]
  omega

theorem take_slice (buf : List Byte) {a b c : Nat} (hc : c ≤ b) (hac : a ≤ c) :
    (slice buf a b).take (c - a) = slice buf a c := by
  apply List.ext_getElem?
  intro i
  rw [List.getElem?_take, slice_getElem?, slice_getElem?]
  by_cases h : i < c - a
  · have h1 : a + i < b := by omega
    have h2 : a + i < c := by omega
    simp [h, h1, h2]
  · have h2 : ¬ a + i < c := by omega
    simp [h, h2]

theorem drop_slice (buf : List Byte) (a b k : Nat) :
    (slice buf a b).drop k = slice buf (a + k) b := by
  unfold slice
  rw [List.drop_drop]

theorem index_natCast (buf : List Byte) (i : Nat) : index buf (i : Int) = buf[i]? := by
  unfold index
  have h : ¬ ((i : Int) < 0) := by omega
  rw [if_neg h, Int.toNat_ofNat]

theorem cut_le (w : List Byte) : (cut w).2 ≤ w.length := by
  induction w with
  | nil => simp [cut]
  | cons b w ih =>
    by_cases hb : b = newline
    · simp [cut, hb]
    · simp only [cut, hb, if_false, List.length_cons]; omega

theorem cut_pos {w : List Byte} (hw : w ≠ []) : 0 < (cut w).2 := by
  cases w with
  | nil => exact absurd rfl hw
  | cons b w =>
    by_cases hb : b = newline
    · simp [cut, hb]
    · simp [cut, hb]

theorem cut_line_le (w : List Byte) : (cut w).1.length ≤ (cut w).2 := by
  induction w with
  | nil => simp [cut]
  | cons b w ih =>
    by_cases hb : b = newline
    · simp [cut, hb]
    · simp only [cut, hb, if_false, List.length_cons]; omega

theorem newline_not_mem_cut (w : List Byte) : newline ∉ (cut w).1 := by
  induction w with
  | nil => simp [cut]
  | cons b w ih =>
    by_cases hb : b = newline
    · simp [cut, hb]
    · simp only [cut, hb, if_false, List.mem_cons, not_or]
      exact ⟨fun h => hb h.symm, ih⟩

/-- The window starts with a terminator-free run of `i` bytes followed by a
terminator: the line is that run and `i + 1` bytes are consumed. -/
theorem cut_of_first (w : List Byte) (i : Nat) (hi : w[i]? = some newline)
    (hfirst : ∀ k, k < i → w[k]? ≠ some newline) : cut w = (w.take i, i + 1) := by
  induction w generalizing i with
  | nil => simp at hi
  | cons b w ih =>
    cases i with
    | zero =>
      have hb : b = newline := by simpa using hi
      simp [cut, hb]
    | succ i =>
      have hb : b ≠ newline := by
        intro hb
        exact hfirst 0 (Nat.succ_pos i) (by simp [hb])
      have hi2 : w[i]? = some newline := by simpa using hi
      have hfirst2 : ∀ k, k < i → w[k]? ≠ some newline := by
        intro k hk
        have := hfirst (k + 1) (by omega)
        simpa using this
      simp [cut, hb, ih i hi2 hfirst2]

/-- The window holds no terminator: the line is the whole window. -/
theorem cut_of_none (w : List Byte) (hnone : ∀ k : Nat, w[k]? ≠ some newline) :
    cut w = (w, w.length) := by
  induction w with
  | nil => rfl
  | cons b w ih =>
    have hb : b ≠ newline := by
      intro hb
      exact hnone 0 (by simp [hb])
    have h2 : ∀ k : Nat, w[k]? ≠ some newline := by
      intro k
      have := hnone (k + 1)
      simpa using this
    simp [cut, hb, ih h2]

/-- The bytes consumed are the line followed by the terminator, if one was
consumed. -/
theorem take_cut (w : List Byte) :
    w.take (cut w).2 = (cut w).1 ++ (if newline ∈ w.take (cut w).2 then [newline] else []) := by
  induction w with
  | nil => simp [cut]
  | cons b w ih =>
    by_cases hb : b = newline
    · simp [cut, hb]
    · have hb2 : ¬ newline = b := fun h => hb h.symm
      simp only [cut, hb, if_false, List.take_succ_cons, List.mem_cons, hb2, false_or,
        List.cons_append, List.cons.injEq, true_and]
      exact ih

namespace CustomScanner

variable {ρ : Type}

/-- The loop of `Line`, given at least `tokenSize - position` iterations, on a
state with `0 ≤ position` and `tokenSize ≤ len(buffer)`: it returns, the
line is extended by `(cut window).1` and `position` advances by
`(cut window).2`. -/
theorem lineLoop_eq (fuel : Nat) (s : CustomScanner ρ) (acc : List Byte)
    (hpos : 0 ≤ s.position) (hlen : s.tokenSize ≤ (s.buffer.length : Int))
    (hfuel : (s.tokenSize - s.position).toNat ≤ fuel) :
    lineLoop fuel s acc =
      { status := .returned (acc ++ (cut (window s)).1),
        scanner := { s with position := s.position + ((cut (window s)).2 : Int) } } := by
  induction fuel generalizing s acc with
  | zero =>
    have hge : ¬ s.position < s.tokenSize := by omega
    have hw : window s = [] := slice_of_le _ (by omega)
    simp [lineLoop, hge, hw, cut]
  | succ fuel ih =>
    by_cases hlt : s.position < s.tokenSize
    · obtain ⟨p, hp⟩ := Int.eq_ofNat_of_zero_le hpos
      obtain ⟨t, ht⟩ := Int.eq_ofNat_of_zero_le (le_trans hpos (le_of_lt hlt))
      have hpt : p < t := by omega
      have htl : t ≤ s.buffer.length := by omega
      have hpl : p < s.buffer.length := by omega
      have hw : window s = s.buffer[p] :: slice s.buffer (p + 1) t := by
        unfold window
        rw [hp, ht, Int.toNat_ofNat, Int.toNat_ofNat]
        exact slice_cons _ hpt htl
      have hidx : index s.buffer s.position = some s.buffer[p] := by
        rw [hp, index_natCast, List.getElem?_eq_getElem hpl]
      simp only [lineLoop, hlt, if_true, hidx]
      by_cases hb : s.buffer[p] = newline
      · simp [hb, hw, cut]
      · have hw1 : window { s with position := s.position + 1 } = slice s.buffer (p + 1) t := by
          unfold window
          have : s.position + 1 = ((p + 1 : Nat) : Int) := by omega
          simp only [this, ht, Int.toNat_ofNat]
        have hih := ih { s with position := s.position + 1 } (acc ++ [s.buffer[p]])
          (by simp only; omega) hlen (by simp only; omega)
        rw [if_neg hb, hih, hw1, hw]
        simp only [cut, hb, if_false, List.append_assoc, List.singleton_append, Nat.cast_add,
          Nat.cast_one]
        congr 2
        omega
    · have hw : window s = [] := slice_of_le _ (by omega)
      simp [lineLoop, hlt, hw, cut]

/-- The method `Line` on a state with `0 ≤ position` and
`tokenSize ≤ len(buffer)`. -/
theorem Line_eq (s : CustomScanner ρ) (hpos : 0 ≤ s.position)
    (hlen : s.tokenSize ≤ (s.buffer.length : Int)) :
    Line s =
      { status := .returned (cut (window s)).1,
        scanner := { s with position := s.position + ((cut (window s)).2 : Int) } } := by
  have h := lineLoop_eq (s.tokenSize - s.position).toNat s [] hpos hlen (le_refl _)
  simpa [Line] using h

/-- The loop of `Line` changes no field but `position`, which never
decreases; this holds in every state and for every bound on the iterations. -/
theorem lineLoop_frame (fuel : Nat) (s : CustomScanner ρ) (acc : List Byte) :
    (lineLoop fuel s acc).scanner.reader = s.reader ∧
    (lineLoop fuel s acc).scanner.buffer = s.buffer ∧
    (lineLoop fuel s acc).scanner.tokenSize = s.tokenSize ∧
    s.position ≤ (lineLoop fuel s acc).scanner.position := by
  induction fuel generalizing s acc with
  | zero =>
    unfold lineLoop
    split <;> simp
  | succ fuel ih =>
    unfold lineLoop
    split
    · split
      · simp
      · split
        · simp
        · rename_i b _ _
          have h := ih { s with position := s.position + 1 } (acc ++ [b])
          simp only at h
          refine ⟨h.1, h.2.1, h.2.2.1, ?_⟩
          have := h.2.2.2
          show s.position ≤ (lineLoop fuel { s with position := s.position + 1 } (acc ++ [b])).scanner.position
          omega
    · simp

/-- The loop of `Line` ends within `tokenSize - position` iterations, in every
state. -/
theorem lineLoop_fuel (fuel : Nat) (s : CustomScanner ρ) (acc : List Byte)
    (hfuel : (s.tokenSize - s.position).toNat ≤ fuel) :
    (lineLoop fuel s acc).status ≠ .outOfFuel := by
  induction fuel generalizing s acc with
  | zero =>
    have hge : ¬ s.position < s.tokenSize := by omega
    simp [lineLoop, hge]
  | succ fuel ih =>
    unfold lineLoop
    split
    · split
      · simp
      · split
        · simp
        · rename_i b _ _
          exact ih { s with position := s.position + 1 } (acc ++ [b]) (by simp only; omega)
    · simp

/-- C1. On a state with `0 ≤ position ≤ tokenSize ≤ len(buffer)`: if `j` is the
smallest index in `[position, tokenSize)` holding `'\n'`, `Line` returns
`buffer[position:j]` and leaves `position = j + 1`; if no such index exists it
returns `buffer[position:tokenSize]` and leaves `position = tokenSize`; and
the returned string never contains `'\n'`. -/
theorem Line_returns_up_to_first_newline (s : CustomScanner ρ) (hInv : Inv s) :
    (∀ j : Int, s.position ≤ j → j < s.tokenSize → index s.buffer j = some newline →
        (∀ k : Int, s.position ≤ k → k < j → index s.buffer k ≠ some newline) →
        (Line s).status = .returned (slice s.buffer s.position.toNat j.toNat) ∧
        (Line s).scanner.position = j + 1) ∧
    ((∀ k : Int, s.position ≤ k → k < s.tokenSize → index s.buffer k ≠ some newline) →
        (Line s).status = .returned (slice s.buffer s.position.toNat s.tokenSize.toNat) ∧
        (Line s).scanner.position = s.tokenSize) ∧
    (∀ line : List Byte, (Line s).status = .returned line → newline ∉ line) := by
  obtain ⟨hpos, hpt, hlen⟩ := hInv
  rw [Line_eq s hpos hlen]
  obtain ⟨p, hp⟩ := Int.eq_ofNat_of_zero_le hpos
  obtain ⟨t, ht⟩ := Int.eq_ofNat_of_zero_le (le_trans hpos hpt)
  have hw : window s = slice s.buffer p t := by
    unfold window
    rw [hp, ht, Int.toNat_ofNat, Int.toNat_ofNat]
  have htl : t ≤ s.buffer.length := by omega
  refine ⟨?_, ?_, ?_⟩
  · intro j hj1 hj2 hj hfirst
    obtain ⟨jn, hjn⟩ := Int.eq_ofNat_of_zero_le (le_trans hpos hj1)
    subst hjn
    have hpj : p ≤ jn := by omega
    have hjt : jn < t := by omega
    have h1 : (slice s.buffer p t)[jn - p]? = some newline := by
      rw [slice_getElem?, if_pos (by omega), ← index_natCast]
      have : p + (jn - p) = jn := by omega
      rw [this]
      exact hj
    have h2 : ∀ k, k < jn - p → (slice s.buffer p t)[k]? ≠ some newline := by
      intro k hk
      rw [slice_getElem?, if_pos (by omega), ← index_natCast]
      exact hfirst _ (by push_cast; omega) (by push_cast; omega)
    rw [hw, cut_of_first _ _ h1 h2, take_slice _ (le_of_lt hjt) hpj]
    simp only [hp, Int.toNat_ofNat, true_and]
    push_cast
    omega
  · intro hnone
    have h2 : ∀ k : Nat, (slice s.buffer p t)[k]? ≠ some newline := by
      intro k
      rw [slice_getElem?]
      split
      · rw [← index_natCast]
        exact hnone _ (by push_cast; omega) (by push_cast; omega)
      · simp
    rw [hw, cut_of_none _ h2, slice_length _ htl]
    simp only [hp, ht, Int.toNat_ofNat, true_and]
    omega
  · intro line hline
    simp only [LineStatus.returned.injEq] at hline
    rw [← hline]
    exact newline_not_mem_cut _

/-- C1 at the state with buffer `"ab\ncd"`, `position = 0`, `tokenSize = 5`:
`Line` returns `"ab"` and leaves `position = 3`. -/
theorem Line_returns_up_to_first_newline_witness :
    Inv ({ reader := (), buffer := ascii "ab\ncd", position := 0, tokenSize := 5 } : CustomScanner Unit) ∧
    (Line ({ reader := (), buffer := ascii "ab\ncd", position := 0, tokenSize := 5 } :
        CustomScanner Unit)).status = .returned (ascii "ab") ∧
    (Line ({ reader := (), buffer := ascii "ab\ncd", position := 0, tokenSize := 5 } :
        CustomScanner Unit)).scanner.position = 3 :=
  ⟨by decide,
    (Line_returns_up_to_first_newline
      ({ reader := (), buffer := ascii "ab\ncd", position := 0, tokenSize := 5 } : CustomScanner Unit)
      (by decide)).1 2 (by decide) (by decide) (by decide)
      (by intro k h1 h2; simp only at h1; interval_cases k <;> decide)⟩

/-! ## Terminal state of `Scan` -/

theorem exhausted_read {R : Reader ρ} {r : ρ} (h : Exhausted R r) (p : List Byte) (hp : p ≠ []) :
    Failing (R.Read r p) ∧ Exhausted R (R.Read r p).reader := by
  refine ⟨h [] p (by simp) hp, ?_⟩
  intro ps q hps hq
  have := h (p :: ps) q (by
    intro x hx
    rcases List.mem_cons.mp hx with rfl | hx
    · exact hp
    · exact hps x hx) hq
  simpa [readerAfter] using this

/-- The method `Scan` when unread bytes remain: no read. -/
theorem Scan_fast (R : Reader ρ) (s : CustomScanner ρ) (h : s.position < s.tokenSize) :
    Scan R s = { ok := decide (s.tokenSize > 0), scanner := s, reads := 0 } := by
  have h2 : ¬ s.position ≥ s.tokenSize := by omega
  simp only [Scan, h2, if_false]

/-- The method `Scan` when the window is empty and the read reports an error. -/
theorem Scan_err (R : Reader ρ) (s : CustomScanner ρ) (h : s.tokenSize ≤ s.position)
    (herr : (R.Read s.reader s.buffer).err.isSome = true) :
    Scan R s =
      { ok := false,
        scanner := { s with reader := (R.Read s.reader s.buffer).reader,
                            buffer := (R.Read s.reader s.buffer).p },
        reads := 1 } := by
  have h2 : s.position ≥ s.tokenSize := h
  simp only [Scan, h2, if_true, herr]

/-- The method `Scan` when the window is empty and the read reports no error. -/
theorem Scan_fill (R : Reader ρ) (s : CustomScanner ρ) (h : s.tokenSize ≤ s.position)
    (herr : ¬ (R.Read s.reader s.buffer).err.isSome = true) :
    Scan R s =
      { ok := decide ((R.Read s.reader s.buffer).n > 0),
        scanner := { reader := (R.Read s.reader s.buffer).reader,
                     buffer := (R.Read s.reader s.buffer).p,
                     position := 0,
                     tokenSize := (R.Read s.reader s.buffer).n },
        reads := 1 } := by
  have h2 : s.position ≥ s.tokenSize := h
  simp [Scan, h2, herr]

theorem Scan_buffer_ne_nil (R : Reader ρ) (s : CustomScanner ρ) (h : s.buffer ≠ []) :
    (Scan R s).scanner.buffer ≠ [] := by
  have hl := R.Read_length s.reader s.buffer
  have hne : (R.Read s.reader s.buffer).p ≠ [] := by
    intro h0
    rw [h0] at hl
    exact h (List.length_eq_zero.mp hl.symm)
  by_cases h1 : s.position < s.tokenSize
  · rw [Scan_fast R s h1]; exact h
  · by_cases herr : (R.Read s.reader s.buffer).err.isSome = true
    · rw [Scan_err R s (by omega) herr]; exact hne
    · rw [Scan_fill R s (by omega) herr]; exact hne

theorem Scan_position_nonneg (R : Reader ρ) (s : CustomScanner ρ) (h : 0 ≤ s.position) :
    0 ≤ (Scan R s).scanner.position := by
  by_cases h1 : s.position < s.tokenSize
  · rw [Scan_fast R s h1]; exact h
  · by_cases herr : (R.Read s.reader s.buffer).err.isSome = true
    · rw [Scan_err R s (by omega) herr]; exact h
    · rw [Scan_fill R s (by omega) herr]

theorem Scan_false_terminal (R : Reader ρ) (hR : Sticky R) (s : CustomScanner ρ)
    (hpos : 0 ≤ s.position) (hbuf : s.buffer ≠ []) (hok : (Scan R s).ok = false) :
    Terminal R (Scan R s).scanner := by
  refine ⟨?_, Scan_buffer_ne_nil R s hbuf, ?_⟩ <;> revert hok
  · by_cases h1 : s.position < s.tokenSize
    · rw [Scan_fast R s h1]
      intro hok
      simp only [gt_iff_lt, decide_eq_false_iff_not, not_lt] at hok
      omega
    · by_cases herr : (R.Read s.reader s.buffer).err.isSome = true
      · rw [Scan_err R s (by omega) herr]
        intro _
        show s.tokenSize ≤ s.position
        omega
      · rw [Scan_fill R s (by omega) herr]
        intro hok
        simp only [gt_iff_lt, decide_eq_false_iff_not, not_lt] at hok
        exact hok
  · by_cases h1 : s.position < s.tokenSize
    · rw [Scan_fast R s h1]
      intro hok
      simp only [gt_iff_lt, decide_eq_false_iff_not, not_lt] at hok
      omega
    · by_cases herr : (R.Read s.reader s.buffer).err.isSome = true
      · rw [Scan_err R s (by omega) herr]
        intro _
        exact hR s.reader s.buffer hbuf (Or.inl herr)
      · rw [Scan_fill R s (by omega) herr]
        intro hok
        simp only [gt_iff_lt, decide_eq_false_iff_not, not_lt] at hok
        exact hR s.reader s.buffer hbuf (Or.inr hok)

theorem Scan_of_terminal (R : Reader ρ) (s : CustomScanner ρ) (h : Terminal R s) :
    (Scan R s).ok = false ∧ Terminal R (Scan R s).scanner := by
  obtain ⟨hge, hbuf, hex⟩ := h
  obtain ⟨hfail, hex2⟩ := exhausted_read hex s.buffer hbuf
  have hbuf2 := Scan_buffer_ne_nil R s hbuf
  revert hbuf2
  by_cases herr : (R.Read s.reader s.buffer).err.isSome = true
  · rw [Scan_err R s hge herr]
    intro hbuf2
    exact ⟨rfl, hge, hbuf2, hex2⟩
  · rw [Scan_fill R s hge herr]
    intro hbuf2
    have hn : (R.Read s.reader s.buffer).n ≤ 0 := by
      rcases hfail with h | h
      · exact absurd h herr
      · exact h
    refine ⟨?_, hn, hbuf2, hex2⟩
    simp only [gt_iff_lt, decide_eq_false_iff_not, not_lt]
    exact hn

theorem Line_of_terminal (R : Reader ρ) (s : CustomScanner ρ) (h : Terminal R s) :
    Terminal R (Line s).scanner := by
  obtain ⟨hge, hbuf, hex⟩ := h
  obtain ⟨h1, h2, h3, h4⟩ := lineLoop_frame (s.tokenSize - s.position).toNat s []
  unfold Line
  refine ⟨?_, ?_, ?_⟩
  · rw [h3]; omega
  · rw [h2]; exact hbuf
  · rw [h1]; exact hex

theorem scanResults_of_terminal (R : Reader ρ) (calls : List Call) (s : CustomScanner ρ)
    (h : Terminal R s) : ∀ b ∈ scanResults R calls s, b = false := by
  induction calls generalizing s with
  | nil => simp [scanResults]
  | cons c calls ih =>
    cases c with
    | scan =>
      obtain ⟨hok, hT⟩ := Scan_of_terminal R s h
      intro b hb
      simp only [scanResults, List.mem_cons] at hb
      rcases hb with rfl | hb
      · exact hok
      · exact ih _ hT b hb
    | line =>
      intro b hb
      simp only [scanResults] at hb
      split at hb
      · exact ih _ (Line_of_terminal R s h) b hb
      · simp at hb

/-- C2, as the code has it. For a byte source whose failures are permanent, and
a scanner with `0 ≤ position` and a non-empty buffer (as `NewCustomScanner`
returns): in every sequence of `Scan` and `Line` calls, once a `Scan` has
returned false every later `Scan` returns false. -/
theorem Scan_false_is_final (R : Reader ρ) (hR : Sticky R) (s : CustomScanner ρ)
    (hpos : 0 ≤ s.position) (hbuf : s.buffer ≠ []) (calls : List Call) :
    ScanStaysFalse (scanResults R calls s) := by
  unfold ScanStaysFalse
  induction calls generalizing s with
  | nil => simp [scanResults]
  | cons c calls ih =>
    cases c with
    | scan =>
      simp only [scanResults, List.pairwise_cons]
      refine ⟨?_, ih _ (Scan_position_nonneg R s hpos) (Scan_buffer_ne_nil R s hbuf)⟩
      intro b hb hok
      exact scanResults_of_terminal R calls _ (Scan_false_terminal R hR s hpos hbuf hok) b hb
    | line =>
      simp only [scanResults]
      split
      · obtain ⟨_, h2, _, h4⟩ := lineLoop_frame (s.tokenSize - s.position).toNat s []
        exact ih _ (le_trans hpos h4) (by show (Line s).scanner.buffer ≠ []; unfold Line; rw [h2]; exact hbuf)
      · exact List.Pairwise.nil

end CustomScanner

/-- A `*strings.Reader` at the end of its string stays there. -/
theorem stringsReader_exhausted (r : StringsReader) (h : r.s.length ≤ r.i) :
    Exhausted stringsReader r := by
  intro ps
  induction ps generalizing r with
  | nil =>
    intro p _ _
    left
    simp [readerAfter, stringsReader, StringsReader.Read, h]
  | cons q ps ih =>
    intro p hps hp
    have hq : (stringsReader.Read r q).reader = r := by
      simp [stringsReader, StringsReader.Read, h]
    have := ih r h p (fun x hx => hps x (List.mem_cons_of_mem _ hx)) hp
    simpa [readerAfter, hq] using this

/-- The failures of a `*strings.Reader` are permanent. -/
theorem stringsReader_sticky : Sticky stringsReader := by
  intro r p hp hfail
  by_cases h : r.s.length ≤ r.i
  · have hq : (stringsReader.Read r p).reader = r := by
      simp [stringsReader, StringsReader.Read, h]
    rw [hq]
    exact stringsReader_exhausted r h
  · exfalso
    have hlen : 0 < p.length := List.length_pos.mpr hp
    rcases hfail with hf | hf
    · simp [stringsReader, StringsReader.Read, h] at hf
    · simp only [stringsReader, StringsReader.Read, ge_iff_le, h, if_false, copy,
        List.length_drop] at hf
      omega

namespace CustomScanner

/-- C2, as stated, fails: a byte source that reports an error once and data
afterwards makes `Scan` return false and then true. -/
theorem Scan_true_after_false :
    scanResults scriptReader [.scan, .scan]
        (NewCustomScanner [⟨[], some "timeout"⟩, ⟨ascii "hi", none⟩]) = [false, true] ∧
    ¬ ScanStaysFalse (scanResults scriptReader [.scan, .scan]
        (NewCustomScanner [⟨[], some "timeout"⟩, ⟨ascii "hi", none⟩])) := by
  have h : scanResults scriptReader [.scan, .scan]
      (NewCustomScanner [⟨[], some "timeout"⟩, ⟨ascii "hi", none⟩]) = [false, true] := by
    have hlen : (ascii "hi").length = 2 := by decide
    simp [scanResults, Scan, NewCustomScanner, scriptReader, scriptRead, copy, makeBytes_length, hlen]
  rw [h]
  decide

/-- C2 on a `strings.Reader` over `"a\nb"`: the `Scan` results of the calls
`Scan, Line, Scan, Line, Scan, Line, Scan, Scan` are true, true, false,
false, false. -/
theorem Scan_false_is_final_witness :
    scanResults stringsReader [.scan, .line, .scan, .line, .scan, .line, .scan, .scan]
        (NewDebugScanner (ascii "a\nb")) = [true, true, false, false, false] ∧
    ScanStaysFalse (scanResults stringsReader
        [.scan, .line, .scan, .line, .scan, .line, .scan, .scan] (NewDebugScanner (ascii "a\nb"))) :=
  ⟨by decide,
    Scan_false_is_final stringsReader stringsReader_sticky (NewDebugScanner (ascii "a\nb"))
      (by decide) (by decide) _⟩

/-! ## The state invariant -/

theorem Inv_new (reader : ρ) : Inv (NewCustomScanner reader) := by
  simp [Inv, NewCustomScanner]

theorem Inv_Scan (R : Reader ρ) (hR : InRange R) (s : CustomScanner ρ) (h : Inv s) :
    Inv (Scan R s).scanner := by
  obtain ⟨h0, h1, h2⟩ := h
  have hl := R.Read_length s.reader s.buffer
  obtain ⟨hn0, hn1⟩ := hR s.reader s.buffer
  by_cases hlt : s.position < s.tokenSize
  · rw [Scan_fast R s hlt]
    exact ⟨h0, h1, h2⟩
  · by_cases herr : (R.Read s.reader s.buffer).err.isSome = true
    · rw [Scan_err R s (by omega) herr]
      refine ⟨h0, h1, ?_⟩
      simp only [hl]
      exact h2
    · rw [Scan_fill R s (by omega) herr]
      refine ⟨le_refl _, hn0, ?_⟩
      simp only [hl]
      exact hn1

theorem window_length (s : CustomScanner ρ) (h : Inv s) :
    ((window s).length : Int) = s.tokenSize - s.position := by
  obtain ⟨h0, h1, h2⟩ := h
  unfold window
  rw [slice_length _ (by omega)]
  omega

theorem Inv_Line (s : CustomScanner ρ) (h : Inv s) : Inv (Line s).scanner := by
  have hw := window_length s h
  obtain ⟨h0, h1, h2⟩ := h
  rw [Line_eq s h0 h2]
  have hc := cut_le (window s)
  refine ⟨?_, ?_, h2⟩
  · show 0 ≤ s.position + ((cut (window s)).2 : Int)
    omega
  · show s.position + ((cut (window s)).2 : Int) ≤ s.tokenSize
    omega

theorem Inv_of_reachable (R : Reader ρ) (hR : InRange R) (s : CustomScanner ρ)
    (h : Reachable R s) : Inv s := by
  induction h with
  | init reader => exact Inv_new reader
  | scan _ ih => exact Inv_Scan R hR _ ih
  | line _ _ ih => exact Inv_Line _ ih

end CustomScanner

/-- A `*strings.Reader` reports a count within the slice. -/
theorem stringsReader_inRange : InRange stringsReader := by
  intro r p
  simp only [stringsReader, StringsReader.Read]
  split
  · simp
  · simp only [copy]
    omega

namespace CustomScanner

/-- C4. The invariant `0 ≤ position ≤ tokenSize ≤ len(buffer)`
holds for the scanner `NewCustomScanner` returns and is preserved by every
`Scan` and every `Line` call, for every byte source whose `Read` reports a
count `n` with `0 ≤ n ≤ len(buffer)`. -/
theorem Inv_holds_and_is_preserved (R : Reader ρ) (hR : InRange R) :
    (∀ reader : ρ, Inv (NewCustomScanner reader)) ∧
    (∀ s : CustomScanner ρ, Inv s → Inv (Scan R s).scanner) ∧
    (∀ s : CustomScanner ρ, Inv s → Inv (Line s).scanner) :=
  ⟨Inv_new, Inv_Scan R hR, Inv_Line⟩

/-- C4 on a `strings.Reader` over `"Hello\nWorld"`: the invariant holds after
`NewDebugScanner`, after the `Scan` that follows, and after the `Line` that
follows that. -/
theorem Inv_holds_and_is_preserved_witness :
    Inv (NewDebugScanner (ascii "Hello\nWorld")) ∧
    Inv (Scan stringsReader (NewDebugScanner (ascii "Hello\nWorld"))).scanner ∧
    Inv (Line (Scan stringsReader (NewDebugScanner (ascii "Hello\nWorld"))).scanner).scanner :=
  ⟨by decide,
    (Inv_holds_and_is_preserved stringsReader stringsReader_inRange).2.1 _ (by decide),
    (Inv_holds_and_is_preserved stringsReader stringsReader_inRange).2.2 _ (by decide)⟩

/-- C5. With `0 ≤ position < tokenSize`, `Scan` returns true, performs no
`Read` and leaves the scanner (position, tokenSize, buffer, source) as it
was. -/
theorem Scan_fast_path (R : Reader ρ) (s : CustomScanner ρ) (h0 : 0 ≤ s.position)
    (h : s.position < s.tokenSize) :
    (Scan R s).ok = true ∧ (Scan R s).reads = 0 ∧ (Scan R s).scanner = s := by
  rw [Scan_fast R s h]
  refine ⟨?_, rfl, rfl⟩
  simp only [gt_iff_lt, decide_eq_true_eq]
  omega

/-- C5 at `position = 6`, `tokenSize = 10` over the buffer `"Hello\nWorl"`. -/
theorem Scan_fast_path_witness :
    (Scan stringsReader
      { reader := { s := ascii "Hello\nWorld", i := 10 }, buffer := ascii "Hello\nWorl",
        position := 6, tokenSize := 10 }).ok = true ∧
    (Scan stringsReader
      { reader := { s := ascii "Hello\nWorld", i := 10 }, buffer := ascii "Hello\nWorl",
        position := 6, tokenSize := 10 }).reads = 0 ∧
    (Scan stringsReader
      { reader := { s := ascii "Hello\nWorld", i := 10 }, buffer := ascii "Hello\nWorl",
        position := 6, tokenSize := 10 }).scanner =
      { reader := { s := ascii "Hello\nWorld", i := 10 }, buffer := ascii "Hello\nWorl",
        position := 6, tokenSize := 10 } :=
  Scan_fast_path stringsReader
    { reader := { s := ascii "Hello\nWorld", i := 10 }, buffer := ascii "Hello\nWorl",
      position := 6, tokenSize := 10 } (by decide) (by decide)

/-- C6. With `position ≥ tokenSize`, if the source's `Read` into the buffer
reports no error and `n > 0`, then `Scan` returns true after exactly one
`Read`, and afterwards `position = 0`, `tokenSize = n`, the buffer is what
the source left in it, so `buffer[0:n]` holds the bytes supplied, and the
source is in the state the `Read` left it in. -/
theorem Scan_refill (R : Reader ρ) (s : CustomScanner ρ) (h : s.position ≥ s.tokenSize)
    (herr : (R.Read s.reader s.buffer).err = none) (hn : (R.Read s.reader s.buffer).n > 0) :
    (Scan R s).ok = true ∧
    (Scan R s).reads = 1 ∧
    (Scan R s).scanner.position = 0 ∧
    (Scan R s).scanner.tokenSize = (R.Read s.reader s.buffer).n ∧
    (Scan R s).scanner.buffer = (R.Read s.reader s.buffer).p ∧
    slice (Scan R s).scanner.buffer 0 (R.Read s.reader s.buffer).n.toNat =
      slice (R.Read s.reader s.buffer).p 0 (R.Read s.reader s.buffer).n.toNat ∧
    (Scan R s).scanner.reader = (R.Read s.reader s.buffer).reader := by
  have herr2 : ¬ (R.Read s.reader s.buffer).err.isSome = true := by simp [herr]
  rw [Scan_fill R s h herr2]
  refine ⟨?_, rfl, rfl, rfl, rfl, rfl, rfl⟩
  simpa using hn

/-- C6 on a `strings.Reader` over `"Hello\nWorld"` read into ten bytes: the
refill leaves `position = 0`, `tokenSize = 10` and the buffer
`"Hello\nWorl"`. -/
theorem Scan_refill_witness :
    (Scan stringsReader (NewDebugScanner (ascii "Hello\nWorld"))).ok = true ∧
    (Scan stringsReader (NewDebugScanner (ascii "Hello\nWorld"))).scanner.position = 0 ∧
    (Scan stringsReader (NewDebugScanner (ascii "Hello\nWorld"))).scanner.tokenSize = 10 ∧
    (Scan stringsReader (NewDebugScanner (ascii "Hello\nWorld"))).scanner.buffer =
      ascii "Hello\nWorl" := by
  have h := Scan_refill stringsReader (NewDebugScanner (ascii "Hello\nWorld"))
    (by decide) (by decide) (by decide)
  refine ⟨h.1, h.2.2.1, ?_, ?_⟩
  · rw [h.2.2.2.1]; decide
  · rw [h.2.2.2.2.1]; decide

/-- C7. For a byte source whose `Read` reports `0 ≤ n ≤ len(buffer)`, in every
state reachable from `NewCustomScanner` by `Scan` and `Line` calls: the
access `buffer[position]` guarded by `position < tokenSize` is within
bounds, and `Line` returns a string rather than panicking. -/
theorem Line_never_panics (R : Reader ρ) (hR : InRange R) (s : CustomScanner ρ)
    (hs : Reachable R s) :
    (s.position < s.tokenSize → ∃ b : Byte, index s.buffer s.position = some b) ∧
    (∃ line : List Byte, (Line s).status = .returned line) := by
  obtain ⟨h0, h1, h2⟩ := Inv_of_reachable R hR s hs
  constructor
  · intro hlt
    obtain ⟨p, hp⟩ := Int.eq_ofNat_of_zero_le h0
    have hpl : p < s.buffer.length := by omega
    exact ⟨s.buffer[p], by rw [hp, index_natCast, List.getElem?_eq_getElem hpl]⟩
  · rw [Line_eq s h0 h2]
    exact ⟨_, rfl⟩

/-- C7 in the state reached by `NewCustomScanner` and one `Scan` over a
`strings.Reader` holding `"a\nb"`: `Line` returns. -/
theorem Line_never_panics_witness :
    ∃ line : List Byte,
      (Line (Scan stringsReader (NewCustomScanner (stringsNewReader (ascii "a\nb")))).scanner).status =
        .returned line :=
  (Line_never_panics stringsReader stringsReader_inRange _
    (Reachable.scan (Reachable.init (stringsNewReader (ascii "a\nb"))))).2

/-- C8. In every state, `Line` leaves the source, the buffer and `tokenSize`
as they were and never decreases `position`; its embedding has no access to
the source's `Read`. A `Scan` call either leaves `tokenSize` as it was or
performed a `Read`. -/
theorem Line_frame (R : Reader ρ) (s : CustomScanner ρ) :
    (Line s).scanner.reader = s.reader ∧
    (Line s).scanner.buffer = s.buffer ∧
    (Line s).scanner.tokenSize = s.tokenSize ∧
    s.position ≤ (Line s).scanner.position ∧
    (Line s).status ≠ .outOfFuel ∧
    ((Scan R s).scanner.tokenSize = s.tokenSize ∨ (Scan R s).reads = 1) := by
  obtain ⟨h1, h2, h3, h4⟩ := lineLoop_frame (s.tokenSize - s.position).toNat s []
  refine ⟨h1, h2, h3, h4, lineLoop_fuel _ s [] (le_refl _), ?_⟩
  by_cases hlt : s.position < s.tokenSize
  · left; rw [Scan_fast R s hlt]
  · right
    by_cases herr : (R.Read s.reader s.buffer).err.isSome = true
    · rw [Scan_err R s (by omega) herr]
    · rw [Scan_fill R s (by omega) herr]

/-! ## Round trip of the usage loop -/

theorem usageLoop_succ (R : Reader ρ) (fuel : Nat) (s : CustomScanner ρ) (calls : List LineCall) :
    usageLoop R (fuel + 1) s calls =
      if (Scan R s).ok then
        match (Line (Scan R s).scanner).status with
        | .returned line =>
          usageLoop R fuel (Line (Scan R s).scanner).scanner
            (calls ++ [{ line := line,
                         consumed := consumed (Scan R s).scanner (Line (Scan R s).scanner).scanner }])
        | .panicked => (.panicked, (Line (Scan R s).scanner).scanner)
        | .outOfFuel => (.outOfFuel, (Line (Scan R s).scanner).scanner)
      else
        (.finished calls, (Scan R s).scanner) := rfl

/-- One `Scan` over a streaming source: either it returns false and nothing is
left to deliver, or it returns true with a non-empty window, and the window
followed by the rest of the stream is what it was. -/
theorem Scan_stream (R : Reader ρ) (stream : ρ → List Byte) (hR : Streams R stream)
    (s : CustomScanner ρ) (hInv : Inv s) (hbuf : s.buffer ≠ []) :
    ((Scan R s).ok = false ∧ window s = [] ∧ stream s.reader = []) ∨
    ((Scan R s).ok = true ∧ Inv (Scan R s).scanner ∧ (Scan R s).scanner.buffer ≠ [] ∧
      (Scan R s).scanner.position < (Scan R s).scanner.tokenSize ∧
      window (Scan R s).scanner ++ stream (Scan R s).scanner.reader =
        window s ++ stream s.reader) := by
  have hbuf2 := Scan_buffer_ne_nil R s hbuf
  obtain ⟨h0, h1, h2⟩ := hInv
  by_cases hlt : s.position < s.tokenSize
  · right
    rw [Scan_fast R s hlt]
    refine ⟨?_, ⟨h0, h1, h2⟩, hbuf, hlt, rfl⟩
    simp only [gt_iff_lt, decide_eq_true_eq]
    omega
  · have hw : window s = [] := slice_of_le _ (by omega)
    by_cases hst : stream s.reader = []
    · left
      have herr := (hR.eof s.reader s.buffer hst).2
      rw [Scan_err R s (by omega) herr]
      exact ⟨rfl, hw, hst⟩
    · right
      obtain ⟨herr, hn1, hn2, htake, hdrop⟩ := hR.fill s.reader s.buffer hst hbuf
      have herr2 : ¬ (R.Read s.reader s.buffer).err.isSome = true := by simp [herr]
      have hl := R.Read_length s.reader s.buffer
      revert hbuf2
      rw [Scan_fill R s (by omega) herr2]
      intro hbuf2
      refine ⟨?_, ⟨le_refl _, ?_, ?_⟩, hbuf2, ?_, ?_⟩
      · simp only [gt_iff_lt, decide_eq_true_eq]
        omega
      · show (0 : Int) ≤ (R.Read s.reader s.buffer).n
        omega
      · show (R.Read s.reader s.buffer).n ≤ ((R.Read s.reader s.buffer).p.length : Int)
        rw [hl]
        exact hn2
      · show (0 : Int) < (R.Read s.reader s.buffer).n
        omega
      · rw [hw, List.nil_append]
        show slice (R.Read s.reader s.buffer).p (0 : Int).toNat (R.Read s.reader s.buffer).n.toNat ++
          stream (R.Read s.reader s.buffer).reader = stream s.reader
        simp only [slice, Int.toNat_zero, List.drop_zero]
        rw [htake, hdrop, List.take_append_drop]

/-- One `Line` on a non-empty window: it returns, and what the caller rebuilds
from the call, followed by the window left, is the window it started from;
the window left is shorter. -/
theorem Line_stream (s : CustomScanner ρ) (hInv : Inv s) (hlt : s.position < s.tokenSize) :
    ∃ line : List Byte, (Line s).status = .returned line ∧ Inv (Line s).scanner ∧
      (Line s).scanner.buffer = s.buffer ∧ (Line s).scanner.reader = s.reader ∧
      LineCall.restore { line := line, consumed := consumed s (Line s).scanner } ++
        window (Line s).scanner = window s ∧
      (window (Line s).scanner).length < (window s).length := by
  have hInv2 := Inv_Line s hInv
  have hwl := window_length s hInv
  obtain ⟨h0, h1, h2⟩ := hInv
  revert hInv2
  rw [Line_eq s h0 h2]
  intro hInv2
  obtain ⟨p, hp⟩ := Int.eq_ofNat_of_zero_le h0
  obtain ⟨t, ht⟩ := Int.eq_ofNat_of_zero_le (le_trans h0 h1)
  have hw : window s = slice s.buffer p t := by
    unfold window
    rw [hp, ht, Int.toNat_ofNat, Int.toNat_ofNat]
  have hk := cut_le (window s)
  have hne : window s ≠ [] := by
    intro h
    rw [h] at hwl
    simp only [List.length_nil, Nat.cast_zero] at hwl
    omega
  have hkpos := cut_pos hne
  have hpos2 : (s.position + ((cut (window s)).2 : Int)).toNat = p + (cut (window s)).2 := by
    omega
  have hcons : consumed s { s with position := s.position + ((cut (window s)).2 : Int) } =
      (window s).take (cut (window s)).2 := by
    unfold consumed
    simp only [hpos2]
    rw [hp, Int.toNat_ofNat, hw]
    have := take_slice s.buffer (a := p) (b := t) (c := p + (cut (slice s.buffer p t)).2)
      (by rw [hw] at hk hwl; omega) (by omega)
    rw [← this]
    congr 1
    omega
  have hwin2 : window { s with position := s.position + ((cut (window s)).2 : Int) } =
      (window s).drop (cut (window s)).2 := by
    show slice s.buffer (s.position + ((cut (window s)).2 : Int)).toNat s.tokenSize.toNat = _
    rw [hpos2, ht, Int.toNat_ofNat, hw, drop_slice]
  refine ⟨_, rfl, hInv2, rfl, rfl, ?_, ?_⟩
  · rw [hcons, hwin2]
    unfold LineCall.restore
    simp only
    rw [← take_cut, List.take_append_drop]
  · rw [hwin2, List.length_drop]
    have : 0 < (window s).length := List.length_pos.mpr hne
    omega

theorem reassemble_cons (c : LineCall) (calls : List LineCall) :
    reassemble (c :: calls) = c.restore ++ reassemble calls := by
  simp [reassemble]

/-- The usage loop over a streaming source, from any state that satisfies the
invariant: it finishes within `n + 1` evaluations of its condition when at
most `n` bytes are left in the window and the stream, and the `Line` calls
rebuild the window followed by the stream. -/
theorem usageLoop_stream (R : Reader ρ) (stream : ρ → List Byte) (hR : Streams R stream)
    (n : Nat) (s : CustomScanner ρ) (acc : List LineCall) (hInv : Inv s) (hbuf : s.buffer ≠ [])
    (hn : (window s).length + (stream s.reader).length ≤ n) :
    ∃ (calls : List LineCall) (final : CustomScanner ρ),
      (∀ fuel : Nat, n + 1 ≤ fuel → usageLoop R fuel s acc = (.finished (acc ++ calls), final)) ∧
      reassemble calls = window s ++ stream s.reader := by
  induction n generalizing s acc with
  | zero =>
    rcases Scan_stream R stream hR s hInv hbuf with ⟨hok, hw, hst⟩ | ⟨hok, hInv1, _, hlt1, heq⟩
    · refine ⟨[], (Scan R s).scanner, ?_, by simp [reassemble, hw, hst]⟩
      intro fuel hfuel
      obtain ⟨f, rfl⟩ : ∃ f, fuel = f + 1 := ⟨fuel - 1, by omega⟩
      rw [usageLoop_succ, hok]
      simp
    · exfalso
      have hlen := congrArg List.length heq
      simp only [List.length_append] at hlen
      have hwl := window_length _ hInv1
      omega
  | succ n ih =>
    rcases Scan_stream R stream hR s hInv hbuf with ⟨hok, hw, hst⟩ | ⟨hok, hInv1, hbuf1, hlt1, heq⟩
    · refine ⟨[], (Scan R s).scanner, ?_, by simp [reassemble, hw, hst]⟩
      intro fuel hfuel
      obtain ⟨f, rfl⟩ : ∃ f, fuel = f + 1 := ⟨fuel - 1, by omega⟩
      rw [usageLoop_succ, hok]
      simp
    · obtain ⟨line, hline, hInv2, hbuf2, hrd2, hrest, hshort⟩ := Line_stream _ hInv1 hlt1
      have hlen := congrArg List.length heq
      simp only [List.length_append] at hlen
      obtain ⟨calls, final, hrun, hre⟩ := ih (Line (Scan R s).scanner).scanner
        (acc ++ [{ line := line,
                   consumed := consumed (Scan R s).scanner (Line (Scan R s).scanner).scanner }])
        hInv2 (by rw [hbuf2]; exact hbuf1) (by rw [hrd2]; omega)
      refine ⟨{ line := line,
                consumed := consumed (Scan R s).scanner (Line (Scan R s).scanner).scanner } :: calls,
        final, ?_, ?_⟩
      · intro fuel hfuel
        obtain ⟨f, rfl⟩ : ∃ f, fuel = f + 1 := ⟨fuel - 1, by omega⟩
        rw [usageLoop_succ, hok, if_pos rfl, hline]
        simp only
        rw [hrun f (by omega), List.append_assoc, List.singleton_append]
      · rw [reassemble_cons, hre, hrd2, ← heq, ← List.append_assoc, hrest]

end CustomScanner

/-- A `*strings.Reader` hands out `s[i:]` in successive fills. -/
theorem stringsReader_streams : Streams stringsReader StringsReader.rest := by
  constructor
  · intro r p h
    have hi : r.s.length ≤ r.i := by
      simpa [StringsReader.rest, List.drop_eq_nil_iff] using h
    simp [stringsReader, StringsReader.Read, hi]
  · intro r p h hp
    have hi : ¬ r.s.length ≤ r.i := by
      intro hi
      exact h (by simp [StringsReader.rest, List.drop_eq_nil_iff, hi])
    have hplen : 0 < p.length := List.length_pos.mpr hp
    simp only [stringsReader, StringsReader.Read, ge_iff_le, hi, if_false, copy,
      List.length_drop, Int.toNat_ofNat, StringsReader.rest, true_and]
    refine ⟨by omega, by omega, ?_, ?_⟩
    · by_cases hc : p.length ≤ r.s.length - r.i
      · have h1 : List.drop (r.s.length - r.i) p = [] := by
          rw [List.drop_eq_nil_iff]; omega
        rw [h1, List.append_nil, Nat.min_eq_left hc, List.take_take, Nat.min_self]
      · have hc2 : r.s.length - r.i ≤ p.length := by omega
        have h1 : List.take p.length (List.drop r.i r.s) = List.drop r.i r.s := by
          rw [List.take_of_length_le]; simp only [List.length_drop]; omega
        rw [h1, Nat.min_eq_right hc2]
        have h2 : (List.drop r.i r.s).length = r.s.length - r.i := by simp
        rw [← h2, List.take_left', List.take_length]
        rfl
    · rw [List.drop_drop]

namespace CustomScanner

/-- C3. For every byte source that hands out a byte stream in successive fills
(each fill returning between 1 and `len(buffer)` bytes with no error, then
0 bytes with end-of-data) and every fresh scanner with a buffer of capacity
at least 1, the loop `for Scan() { Line() }` terminates, within one more
evaluation of its condition than the input has bytes, and the
concatenation over all `Line` calls of the returned chunk, followed by
`'\n'` exactly when that call consumed a terminator, is the input. -/
theorem usageLoop_round_trip (R : Reader ρ) (stream : ρ → List Byte) (hR : Streams R stream)
    (s : CustomScanner ρ) (hcap : 1 ≤ s.buffer.length) (hpos : s.position = 0)
    (htok : s.tokenSize = 0) :
    ∃ (calls : List LineCall) (final : CustomScanner ρ),
      (∀ fuel : Nat, (stream s.reader).length + 1 ≤ fuel →
        usageLoop R fuel s [] = (.finished calls, final)) ∧
      reassemble calls = stream s.reader := by
  have hInv : Inv s := by
    refine ⟨by omega, by omega, ?_⟩
    rw [htok]
    exact Int.natCast_nonneg _
  have hbuf : s.buffer ≠ [] := List.length_pos.mp hcap
  have hw : window s = [] := slice_of_le _ (by omega)
  obtain ⟨calls, final, hrun, hre⟩ :=
    usageLoop_stream R stream hR (stream s.reader).length s [] hInv hbuf (by simp [hw])
  refine ⟨calls, final, ?_, by simpa [hw] using hre⟩
  intro fuel hfuel
  simpa using hrun fuel hfuel

/-- C3 on `NewDebugScanner("Hello\nWorld")`: the loop finishes within 12
evaluations of its condition and the `Line` calls rebuild `"Hello\nWorld"`. -/
theorem usageLoop_round_trip_witness :
    ∃ (calls : List LineCall) (final : DebugScanner),
      (∀ fuel : Nat, 12 ≤ fuel →
        usageLoop stringsReader fuel (NewDebugScanner (ascii "Hello\nWorld")) [] =
          (.finished calls, final)) ∧
      reassemble calls = ascii "Hello\nWorld" :=
  usageLoop_round_trip stringsReader StringsReader.rest stringsReader_streams
    (NewDebugScanner (ascii "Hello\nWorld")) (by decide) rfl rfl

/-- C10. For a scanner of capacity `C ≥ 1` with an empty window and an input of
exactly `C` bytes without `'\n'` that the source delivers in one fill: the
first `Scan` returns true, the following `Line` returns all `C` bytes and
leaves `position = tokenSize = C`, and the next `Scan` performs exactly one
`Read`. -/
theorem full_buffer_line (R : Reader ρ) (s : CustomScanner ρ) (input : List Byte)
    (hcap : 1 ≤ s.buffer.length) (hpos : s.position = 0) (htok : s.tokenSize = 0)
    (hlen : input.length = s.buffer.length) (hnl : newline ∉ input)
    (herr : (R.Read s.reader s.buffer).err = none)
    (hn : (R.Read s.reader s.buffer).n = (input.length : Int))
    (hp : (R.Read s.reader s.buffer).p = input) :
    (Scan R s).ok = true ∧
    (Line (Scan R s).scanner).status = .returned input ∧
    (Line (Scan R s).scanner).scanner.position = (s.buffer.length : Int) ∧
    (Line (Scan R s).scanner).scanner.tokenSize = (s.buffer.length : Int) ∧
    (Scan R (Line (Scan R s).scanner).scanner).reads = 1 := by
  have herr2 : ¬ (R.Read s.reader s.buffer).err.isSome = true := by simp [herr]
  rw [Scan_fill R s (by omega) herr2, hn, hp]
  have hw : window (CustomScanner.mk (R.Read s.reader s.buffer).reader input 0
      (input.length : Int)) = input := by
    simp [window, slice]
  have hnone : ∀ k : Nat, input[k]? ≠ some newline := by
    intro k hk
    exact hnl (List.getElem?_mem hk)
  have hline := Line_eq (CustomScanner.mk (R.Read s.reader s.buffer).reader input 0
      (input.length : Int)) (le_refl _) (le_refl _)
  rw [hw, cut_of_none input hnone] at hline
  simp only at hline
  rw [hline]
  refine ⟨by simp; omega, rfl, by simp [hlen], by simp [hlen], ?_⟩
  by_cases he : (R.Read (R.Read s.reader s.buffer).reader input).err.isSome = true
  · rw [Scan_err R _ (by simp) he]
  · rw [Scan_fill R _ (by simp) he]

/-- C10 on `NewDebugScanner("HelloWorld")`, ten bytes into a buffer of ten. -/
theorem full_buffer_line_witness :
    (Scan stringsReader (NewDebugScanner (ascii "HelloWorld"))).ok = true ∧
    (Line (Scan stringsReader (NewDebugScanner (ascii "HelloWorld"))).scanner).status =
      .returned (ascii "HelloWorld") ∧
    (Line (Scan stringsReader (NewDebugScanner (ascii "HelloWorld"))).scanner).scanner.position = 10 ∧
    (Line (Scan stringsReader (NewDebugScanner (ascii "HelloWorld"))).scanner).scanner.tokenSize = 10 ∧
    (Scan stringsReader
      (Line (Scan stringsReader (NewDebugScanner (ascii "HelloWorld"))).scanner).scanner).reads = 1 :=
  full_buffer_line stringsReader (NewDebugScanner (ascii "HelloWorld")) (ascii "HelloWorld")
    (by decide) rfl rfl (by decide) (by decide) (by decide) (by decide) (by decide)

end CustomScanner

namespace DebugScanner

/-- C9. On `NewDebugScanner("Hello\nWorld")`, capacity 10: the loop
`for Scan() { Line() }` makes exactly three `Line` calls, returning
`"Hello"`, `"Worl"`, `"d"` in that order; the first `Scan` fills 10 bytes
`"Hello\nWorl"` and `position` is 6 after the first `Line`; the second `Scan`
returns true without a `Read`; the third `Scan` refills with 1 byte; the
fourth `Scan` returns false. -/
theorem hello_world_scenario :
    mainLoop 4 (NewDebugScanner (ascii "Hello\nWorld")) [] =
      some [ascii "Hello", ascii "Worl", ascii "d"] ∧
    (Scan (NewDebugScanner (ascii "Hello\nWorld"))).ok = true ∧
    (Scan (NewDebugScanner (ascii "Hello\nWorld"))).reads = 1 ∧
    (after [.scan] (NewDebugScanner (ascii "Hello\nWorld"))).tokenSize = 10 ∧
    slice (after [.scan] (NewDebugScanner (ascii "Hello\nWorld"))).buffer 0 10 =
      ascii "Hello\nWorl" ∧
    (Line (after [.scan] (NewDebugScanner (ascii "Hello\nWorld")))).status =
      .returned (ascii "Hello") ∧
    (after [.scan, .line] (NewDebugScanner (ascii "Hello\nWorld"))).position = 6 ∧
    (Scan (after [.scan, .line] (NewDebugScanner (ascii "Hello\nWorld")))).ok = true ∧
    (Scan (after [.scan, .line] (NewDebugScanner (ascii "Hello\nWorld")))).reads = 0 ∧
    (Line (after [.scan, .line, .scan] (NewDebugScanner (ascii "Hello\nWorld")))).status =
      .returned (ascii "Worl") ∧
    (Scan (after [.scan, .line, .scan, .line] (NewDebugScanner (ascii "Hello\nWorld")))).ok = true ∧
    (Scan (after [.scan, .line, .scan, .line] (NewDebugScanner (ascii "Hello\nWorld")))).reads = 1 ∧
    (after [.scan, .line, .scan, .line, .scan] (NewDebugScanner (ascii "Hello\nWorld"))).tokenSize = 1 ∧
    slice (after [.scan, .line, .scan, .line, .scan]
      (NewDebugScanner (ascii "Hello\nWorld"))).buffer 0 1 = ascii "d" ∧
    (Line (after [.scan, .line, .scan, .line, .scan]
      (NewDebugScanner (ascii "Hello\nWorld")))).status = .returned (ascii "d") ∧
    (Scan (after [.scan, .line, .scan, .line, .scan, .line]
      (NewDebugScanner (ascii "Hello\nWorld")))).ok = false ∧
    (Scan (after [.scan, .line, .scan, .line, .scan, .line]
      (NewDebugScanner (ascii "Hello\nWorld")))).reads = 1 := by
  decide

end DebugScanner

/-! ## Further properties of the scanner -/

/-- A terminator-free run followed by a terminator: the line is the run, and
the run and the terminator are consumed. -/
theorem cut_append_newline (w rest : List Byte) (hnl : newline ∉ w) :
    cut (w ++ newline :: rest) = (w, w.length + 1) := by
  induction w with
  | nil => simp [cut]
  | cons b w ih =>
    have hb : b ≠ newline := fun h => hnl (by simp [h])
    have hw : newline ∉ w := fun h => hnl (List.mem_cons_of_mem _ h)
    simp [cut, hb, ih hw]

namespace CustomScanner

variable {ρ : Type}

/-- The method `Line` on an empty window, in any state: it returns the empty
string and leaves the scanner as it was. -/
theorem Line_of_empty_window (s : CustomScanner ρ) (h : s.tokenSize ≤ s.position) :
    Line s = { status := .returned [], scanner := s } := by
  have h0 : (s.tokenSize - s.position).toNat = 0 := by omega
  have hge : ¬ s.position < s.tokenSize := by omega
  simp [Line, h0, lineLoop, hge]

/-- The buffer keeps the length `NewCustomScanner` gave it. -/
theorem buffer_length_of_reachable (R : Reader ρ) (s : CustomScanner ρ) (h : Reachable R s) :
    s.buffer.length = 4096 := by
  induction h with
  | init reader => simp [NewCustomScanner, makeBytes_length]
  | @scan s _ ih =>
    have hl := R.Read_length s.reader s.buffer
    by_cases hlt : s.position < s.tokenSize
    · rw [Scan_fast R s hlt]; exact ih
    · by_cases herr : (R.Read s.reader s.buffer).err.isSome = true
      · rw [Scan_err R s (by omega) herr]; simp only [hl]; exact ih
      · rw [Scan_fill R s (by omega) herr]; simp only [hl]; exact ih
  | @line s _ _ _ ih =>
    obtain ⟨_, h2, _, _⟩ := lineLoop_frame (s.tokenSize - s.position).toNat s []
    show (Line s).scanner.buffer.length = 4096
    unfold Line
    rw [h2]
    exact ih

/-- After a `Scan` that returned true, unread bytes remain, whatever the state
and the byte source. -/
theorem Scan_true_window (R : Reader ρ) (s : CustomScanner ρ) (hok : (Scan R s).ok = true) :
    (Scan R s).scanner.position < (Scan R s).scanner.tokenSize := by
  revert hok
  by_cases hlt : s.position < s.tokenSize
  · rw [Scan_fast R s hlt]
    intro _
    exact hlt
  · by_cases herr : (R.Read s.reader s.buffer).err.isSome = true
    · rw [Scan_err R s (by omega) herr]
      intro hok
      exact absurd hok (by simp)
    · rw [Scan_fill R s (by omega) herr]
      intro hok
      simpa using hok

/-- C11. For an input `w ++ "\n"` where `w` holds no `'\n'` and
`len(w) + 1 ≤ len(buffer)`, delivered in one fill by a source that then
reports end-of-data, on a scanner with an empty window: the first `Scan`
returns true, the `Line` that follows returns `w`, the next `Scan` returns
false, and the usage loop finishes having made exactly that one `Line`
call. -/
theorem single_terminated_line (R : Reader ρ) (s : CustomScanner ρ) (w : List Byte)
    (hpos : s.position = 0) (htok : s.tokenSize = 0) (hnl : newline ∉ w)
    (hcap : w.length + 1 ≤ s.buffer.length)
    (herr : (R.Read s.reader s.buffer).err = none)
    (hn : (R.Read s.reader s.buffer).n = (w.length : Int) + 1)
    (hp : (R.Read s.reader s.buffer).p.take (w.length + 1) = w ++ [newline])
    (heof : (R.Read (R.Read s.reader s.buffer).reader
      (R.Read s.reader s.buffer).p).err.isSome = true) :
    (Scan R s).ok = true ∧
    (Line (Scan R s).scanner).status = .returned w ∧
    (Scan R (Line (Scan R s).scanner).scanner).ok = false ∧
    (∀ fuel : Nat, 2 ≤ fuel →
      (usageLoop R fuel s []).1 = .finished [{ line := w, consumed := w ++ [newline] }]) := by
  have herr2 : ¬ (R.Read s.reader s.buffer).err.isSome = true := by simp [herr]
  have hl := R.Read_length s.reader s.buffer
  have hS1 : Scan R s = ScanResult.mk true
      (CustomScanner.mk (R.Read s.reader s.buffer).reader (R.Read s.reader s.buffer).p 0
        ((w.length : Int) + 1)) 1 := by
    rw [Scan_fill R s (by omega) herr2, hn]
    have : (0 : Int) < (w.length : Int) + 1 := by omega
    simp [this]
  have hw : window (CustomScanner.mk (R.Read s.reader s.buffer).reader
      (R.Read s.reader s.buffer).p 0 ((w.length : Int) + 1)) = w ++ [newline] := by
    have h1 : ((w.length : Int) + 1).toNat = w.length + 1 := by omega
    simp only [window, slice, h1, Int.toNat_zero, List.drop_zero]
    exact hp
  have hL : Line (CustomScanner.mk (R.Read s.reader s.buffer).reader
      (R.Read s.reader s.buffer).p 0 ((w.length : Int) + 1)) =
      { status := .returned w,
        scanner := CustomScanner.mk (R.Read s.reader s.buffer).reader
          (R.Read s.reader s.buffer).p ((w.length : Int) + 1) ((w.length : Int) + 1) } := by
    rw [Line_eq _ (le_refl _) (by simp only [hl]; omega), hw, cut_append_newline w [] hnl]
    simp
  have hS2 : (Scan R (CustomScanner.mk (R.Read s.reader s.buffer).reader
      (R.Read s.reader s.buffer).p ((w.length : Int) + 1) ((w.length : Int) + 1))).ok = false := by
    rw [Scan_err R _ (le_refl _) heof]
  have hcons : consumed (CustomScanner.mk (R.Read s.reader s.buffer).reader
        (R.Read s.reader s.buffer).p 0 ((w.length : Int) + 1))
      (CustomScanner.mk (R.Read s.reader s.buffer).reader
        (R.Read s.reader s.buffer).p ((w.length : Int) + 1) ((w.length : Int) + 1)) =
      w ++ [newline] := hw
  refine ⟨by rw [hS1], by rw [hS1, hL], by rw [hS1, hL]; exact hS2, ?_⟩
  intro fuel hfuel
  obtain ⟨f, rfl⟩ : ∃ f, fuel = f + 1 + 1 := ⟨fuel - 2, by omega⟩
  rw [usageLoop_succ, hS1]
  simp only [if_true, hL, List.nil_append, hcons]
  rw [usageLoop_succ, hS2]
  simp

/-- C11 on `NewDebugScanner("abc\n")`: one `Line` call, returning `"abc"`. -/
theorem single_terminated_line_witness :
    (Scan stringsReader (NewDebugScanner (ascii "abc\n"))).ok = true ∧
    (Line (Scan stringsReader (NewDebugScanner (ascii "abc\n"))).scanner).status =
      .returned (ascii "abc") ∧
    (Scan stringsReader
      (Line (Scan stringsReader (NewDebugScanner (ascii "abc\n"))).scanner).scanner).ok = false ∧
    (∀ fuel : Nat, 2 ≤ fuel →
      (usageLoop stringsReader fuel (NewDebugScanner (ascii "abc\n")) []).1 =
        .finished [{ line := ascii "abc", consumed := ascii "abc" ++ [newline] }]) :=
  single_terminated_line stringsReader (NewDebugScanner (ascii "abc\n")) (ascii "abc")
    rfl rfl (by decide) (by decide) (by decide) (by decide) (by decide) (by decide)

/-- C16. With `position ≥ tokenSize`, if the source's `Read` places `n > 0`
bytes in the buffer and also reports an error, then `Scan` returns false
after that one `Read` and leaves `position` and `tokenSize` as they were; a
following `Line` returns the empty string and changes nothing, and the usage
loop ends at this `Scan` without another `Line` call, so the `n` bytes are
not returned to the caller. -/
theorem data_with_error_is_dropped (R : Reader ρ) (s : CustomScanner ρ)
    (hge : s.position ≥ s.tokenSize)
    (_hn : (R.Read s.reader s.buffer).n > 0)
    (herr : (R.Read s.reader s.buffer).err.isSome = true) :
    (Scan R s).ok = false ∧
    (Scan R s).reads = 1 ∧
    (Scan R s).scanner.position = s.position ∧
    (Scan R s).scanner.tokenSize = s.tokenSize ∧
    (Scan R s).scanner.buffer = (R.Read s.reader s.buffer).p ∧
    (Line (Scan R s).scanner).status = .returned [] ∧
    (Line (Scan R s).scanner).scanner = (Scan R s).scanner ∧
    (∀ (fuel : Nat) (calls : List LineCall),
      (usageLoop R (fuel + 1) s calls).1 = .finished calls) := by
  have hline := Line_of_empty_window
    (CustomScanner.mk (R.Read s.reader s.buffer).reader (R.Read s.reader s.buffer).p
      s.position s.tokenSize) hge
  refine ⟨?_, ?_, ?_, ?_, ?_, ?_, ?_, ?_⟩
  · rw [Scan_err R s hge herr]
  · rw [Scan_err R s hge herr]
  · rw [Scan_err R s hge herr]
  · rw [Scan_err R s hge herr]
  · rw [Scan_err R s hge herr]
  · rw [Scan_err R s hge herr, hline]
  · rw [Scan_err R s hge herr, hline]
  · intro fuel calls
    rw [usageLoop_succ, Scan_err R s hge herr]
    simp

/-- C16 on `NewCustomScanner` over a source whose first `Read` delivers
`"tail"` together with `io.EOF`: `Scan` returns false and the following
`Line` returns the empty string. -/
theorem data_with_error_is_dropped_witness :
    (Scan scriptReader (NewCustomScanner [⟨ascii "tail", some ioEOF⟩])).ok = false ∧
    (Line (Scan scriptReader (NewCustomScanner [⟨ascii "tail", some ioEOF⟩])).scanner).status =
      .returned [] := by
  have hlen : (ascii "tail").length = 4 := by decide
  have h := data_with_error_is_dropped scriptReader (NewCustomScanner [⟨ascii "tail", some ioEOF⟩])
    (by decide)
    (by simp [NewCustomScanner, scriptReader, scriptRead, copy, makeBytes_length, hlen])
    (by simp [NewCustomScanner, scriptReader, scriptRead])
  exact ⟨h.1, h.2.2.2.2.2.1⟩

/-- A `Line` call that starts with unread bytes and returns has advanced
`position`, in every state. -/
theorem Line_advances (s : CustomScanner ρ) (hlt : s.position < s.tokenSize) (line : List Byte)
    (hret : (Line s).status = .returned line) : s.position < (Line s).scanner.position := by
  obtain ⟨f, hf⟩ : ∃ f, (s.tokenSize - s.position).toNat = f + 1 :=
    ⟨(s.tokenSize - s.position).toNat - 1, by omega⟩
  revert hret
  unfold Line
  rw [hf]
  unfold lineLoop
  rw [if_pos hlt]
  split
  · intro hret
    simp at hret
  · rename_i b _
    split
    · intro _
      show s.position < s.position + 1
      omega
    · intro _
      have h := (lineLoop_frame f { s with position := s.position + 1 } ([] ++ [b])).2.2.2
      show s.position <
        (lineLoop f { s with position := s.position + 1 } ([] ++ [b])).scanner.position
      have h2 : s.position + 1 ≤
          (lineLoop f { s with position := s.position + 1 } ([] ++ [b])).scanner.position := h
      omega

/-- The loop of `Line` from the start of a terminator-free run `w` that a
terminator follows, with `tokenSize` beyond the terminator and enough
iterations: it returns with `w` appended to the line and `position` just
past the terminator. Nothing is asked of `tokenSize` against the buffer. -/
theorem lineLoop_to_newline (r : ρ) (pre w rest acc : List Byte) (t : Int) (fuel : Nat)
    (hnl : newline ∉ w) (hfuel : w.length < fuel)
    (ht : (pre.length : Int) + (w.length : Int) < t) :
    lineLoop fuel (CustomScanner.mk r (pre ++ (w ++ newline :: rest)) (pre.length : Int) t) acc =
      LineResult.mk (.returned (acc ++ w))
        (CustomScanner.mk r (pre ++ (w ++ newline :: rest))
          ((pre.length : Int) + (w.length : Int) + 1) t) := by
  induction w generalizing pre acc fuel with
  | nil =>
    obtain ⟨f, rfl⟩ : ∃ f, fuel = f + 1 := ⟨fuel - 1, by omega⟩
    have hlt : (pre.length : Int) < t := by
      simp only [List.length_nil, Nat.cast_zero] at ht
      omega
    have hidx : index (pre ++ ([] ++ newline :: rest)) (pre.length : Int) = some newline := by
      rw [index_natCast, List.getElem?_append_right (le_refl _)]
      simp
    simp only [lineLoop, hlt, if_true, hidx, List.append_nil, List.length_nil, Nat.cast_zero,
      Int.add_zero]
  | cons b w ih =>
    obtain ⟨f, rfl⟩ : ∃ f, fuel = f + 1 := ⟨fuel - 1, by omega⟩
    have hb : b ≠ newline := fun h => hnl (by simp [h])
    have hw : newline ∉ w := fun h => hnl (List.mem_cons_of_mem _ h)
    simp only [List.length_cons, Nat.cast_add, Nat.cast_one] at ht hfuel
    have hlt : (pre.length : Int) < t := by omega
    have hidx : index (pre ++ (b :: w ++ newline :: rest)) (pre.length : Int) = some b := by
      rw [index_natCast, List.getElem?_append_right (le_refl _)]
      simp
    have hlen : (((pre ++ [b]).length : Nat) : Int) = (pre.length : Int) + 1 := by
      simp
    have hih := ih (pre ++ [b]) (acc ++ [b]) f hw (by omega) (by rw [hlen]; omega)
    have hbuf : pre ++ [b] ++ (w ++ newline :: rest) = pre ++ (b :: w ++ newline :: rest) := by
      simp
    rw [hbuf, hlen] at hih
    simp only [lineLoop, hlt, if_true, hidx, hb, if_false]
    rw [hih]
    simp only [List.append_assoc, List.singleton_append, List.length_cons, Nat.cast_add,
      Nat.cast_one, LineResult.mk.injEq, CustomScanner.mk.injEq, true_and, and_true]
    omega

/-- Go's index expression at or beyond the length of the slice panics. -/
theorem index_of_length_le (buf : List Byte) (i : Nat) (h : buf.length ≤ i) :
    index buf (i : Int) = none := by
  rw [index_natCast]
  exact List.getElem?_eq_none h

/-- Over a buffer that holds a terminator-free run `w` and then a terminator,
with `tokenSize` one more than the buffer holds: the first `Line` returns
`w` and leaves `position` at the length of the buffer; a `Line` from there
panics on its index and leaves the scanner as it was. -/
theorem Line_then_panic (r : ρ) (w : List Byte) (hnl : newline ∉ w) (p t : Int)
    (hp : p = (w.length : Int) + 1) (ht : t = (w.length : Int) + 2) :
    Line (CustomScanner.mk r (w ++ [newline]) 0 t) =
      LineResult.mk (.returned w) (CustomScanner.mk r (w ++ [newline]) p t) ∧
    Line (CustomScanner.mk r (w ++ [newline]) p t) =
      LineResult.mk .panicked (CustomScanner.mk r (w ++ [newline]) p t) := by
  subst hp ht
  constructor
  · have h := lineLoop_to_newline r [] w [] [] ((w.length : Int) + 2)
      (((w.length : Int) + 2 - 0).toNat) hnl (by omega)
      (by simp only [List.length_nil, Nat.cast_zero]; omega)
    simp only [List.nil_append, List.length_nil, Nat.cast_zero, Int.zero_add] at h
    exact h
  · have hf : ((w.length : Int) + 2 - ((w.length : Int) + 1)).toNat = 1 := by omega
    have hlt : (w.length : Int) + 1 < (w.length : Int) + 2 := by omega
    have hidx : index (w ++ [newline]) ((w.length : Int) + 1) = none := by
      have := index_of_length_le (w ++ [newline]) (w.length + 1) (by simp)
      rw [← this]
      congr 1
    simp only [Line, hf, lineLoop, hlt, if_true, hidx]

/-- The first `Scan` over the over-reporting source: the buffer of
`NewCustomScanner` holds 4095 bytes `'a'` and a terminator, and `tokenSize`
is 4097. -/
theorem overReporter_first_scan :
    Scan overReporter (NewCustomScanner ()) =
      ScanResult.mk true
        (CustomScanner.mk () (List.replicate 4095 97 ++ [newline]) 0 4097) 1 := by
  have herr : ¬ (overReporter.Read (NewCustomScanner ()).reader
      (NewCustomScanner ()).buffer).err.isSome = true := by
    intro h
    exact absurd h (by decide)
  have h1 : makeBytes 4096 = 0 :: List.replicate 4095 0 := rfl
  have h2 : lineFill (makeBytes 4096) = List.replicate 4095 97 ++ [newline] := by
    rw [h1]
    show (List.replicate 4095 (0 : Byte)).map (fun _ => 97) ++ [newline] = _
    rw [List.map_replicate]
  have h3 : ((makeBytes 4096).length : Int) + 1 = 4097 := by
    rw [makeBytes_length]
    decide
  rw [Scan_fill overReporter _ (le_refl _) herr]
  show ScanResult.mk (decide (((makeBytes 4096).length : Int) + 1 > 0))
    (CustomScanner.mk () (lineFill (makeBytes 4096)) 0 (((makeBytes 4096).length : Int) + 1)) 1 = _
  rw [h2, h3]
  rfl

/-- C18, as stated, fails. Over a source that reports one byte more than the
buffer holds, the state reached from `NewCustomScanner` by one `Scan` and
one `Line` has `position = 4096` and `tokenSize = 4097`: the next `Scan`
returns true and leaves `position < tokenSize`, and the `Line` that follows
panics at `buffer[4096]` without advancing `position`. -/
theorem Line_panics_after_true_Scan :
    Reachable overReporter
      (Line (Scan overReporter (NewCustomScanner ())).scanner).scanner ∧
    (Scan overReporter
      (Line (Scan overReporter (NewCustomScanner ())).scanner).scanner).ok = true ∧
    (Scan overReporter
      (Line (Scan overReporter (NewCustomScanner ())).scanner).scanner).scanner.position <
      (Scan overReporter
        (Line (Scan overReporter (NewCustomScanner ())).scanner).scanner).scanner.tokenSize ∧
    (Line (Scan overReporter
      (Line (Scan overReporter (NewCustomScanner ())).scanner).scanner).scanner).status =
        .panicked ∧
    (Line (Scan overReporter
      (Line (Scan overReporter (NewCustomScanner ())).scanner).scanner).scanner).scanner.position =
      (Scan overReporter
        (Line (Scan overReporter (NewCustomScanner ())).scanner).scanner).scanner.position := by
  have hnl : newline ∉ List.replicate 4095 (97 : Byte) := by
    intro h
    exact absurd (List.eq_of_mem_replicate h) (by decide)
  have hlen : ((List.replicate 4095 (97 : Byte)).length : Int) = 4095 := by
    rw [List.length_replicate]
    rfl
  obtain ⟨hl1, hl2⟩ := Line_then_panic () (List.replicate 4095 (97 : Byte)) hnl 4096 4097
    (by rw [hlen]; decide) (by rw [hlen]; decide)
  have hs1 := overReporter_first_scan
  have hfast := Scan_fast overReporter
    (CustomScanner.mk () (List.replicate 4095 97 ++ [newline]) 4096 4097) (by decide)
  have hreach : Reachable overReporter
      (Line (Scan overReporter (NewCustomScanner ())).scanner).scanner :=
    Reachable.line (Reachable.scan (Reachable.init ())) (by rw [hs1, hl1])
  refine ⟨hreach, ?_, ?_, ?_, ?_⟩
  · rw [hs1, hl1, hfast]
    decide
  · rw [hs1, hl1, hfast]
    decide
  · rw [hs1, hl1, hfast, hl2]
  · rw [hs1, hl1, hfast, hl2]

/-- C18, as the code has it. For a byte source whose `Read` reports
`0 ≤ n ≤ len(buffer)`, in every state reachable from `NewCustomScanner`:
whenever `Scan` returns true the state afterwards has `position < tokenSize`,
and the `Line` call that follows returns, consumes at least one byte and
strictly increases `position`, so the unread window shrinks; and over such a
source that hands out a finite stream the usage loop finishes, within one
more evaluation of its condition than bytes are left. -/
theorem usage_loop_progress (R : Reader ρ) (hR : InRange R) (s : CustomScanner ρ)
    (hs : Reachable R s) :
    ((Scan R s).ok = true →
      (Scan R s).scanner.position < (Scan R s).scanner.tokenSize ∧
      (∃ line : List Byte, (Line (Scan R s).scanner).status = .returned line) ∧
      (Scan R s).scanner.position < (Line (Scan R s).scanner).scanner.position ∧
      consumed (Scan R s).scanner (Line (Scan R s).scanner).scanner ≠ [] ∧
      (window (Line (Scan R s).scanner).scanner).length < (window (Scan R s).scanner).length) ∧
    (∀ stream : ρ → List Byte, Streams R stream →
      ∃ (calls : List LineCall) (final : CustomScanner ρ),
        ∀ fuel : Nat, (window s).length + (stream s.reader).length + 1 ≤ fuel →
          usageLoop R fuel s [] = (.finished calls, final)) := by
  have hInv := Inv_of_reachable R hR s hs
  refine ⟨?_, ?_⟩
  · intro hok
    have hlt := Scan_true_window R s hok
    have hInv1 := Inv_Scan R hR s hInv
    generalize (Scan R s).scanner = s1 at hlt hInv1 ⊢
    obtain ⟨line, hline, _, _, _, _, hshort⟩ := Line_stream s1 hInv1 hlt
    have hwl := window_length s1 hInv1
    have hne : window s1 ≠ [] := by
      intro h
      rw [h] at hwl
      simp only [List.length_nil, Nat.cast_zero] at hwl
      omega
    have hk := cut_pos hne
    have hkle := cut_le (window s1)
    have hL := Line_eq s1 hInv1.1 hInv1.2.2
    obtain ⟨h0, h1, h2⟩ := hInv1
    refine ⟨hlt, ⟨line, hline⟩, ?_, ?_, hshort⟩
    · rw [hL]
      show s1.position < s1.position + ((cut (window s1)).2 : Int)
      omega
    · rw [hL]
      intro hnil
      have hlen := congrArg List.length hnil
      unfold consumed at hlen
      rw [slice_length _ (by simp only; omega)] at hlen
      simp only [List.length_nil] at hlen
      omega
  · intro stream hstream
    have hbuf : s.buffer ≠ [] := by
      have := buffer_length_of_reachable R s hs
      intro h0
      rw [h0] at this
      simp at this
    obtain ⟨calls, final, hrun, _⟩ :=
      usageLoop_stream R stream hstream ((window s).length + (stream s.reader).length) s []
        hInv hbuf (le_refl _)
    exact ⟨calls, final, fun fuel hfuel => by simpa using hrun fuel hfuel⟩

/-- C18 on `NewCustomScanner` over a `strings.Reader` holding `"a\nb"`: the
first `Scan` returns true, the `Line` that follows returns and advances
`position`, and the usage loop finishes. -/
theorem usage_loop_progress_witness :
    (Scan stringsReader (NewCustomScanner (stringsNewReader (ascii "a\nb")))).ok = true ∧
    ((∃ line : List Byte,
        (Line (Scan stringsReader
          (NewCustomScanner (stringsNewReader (ascii "a\nb")))).scanner).status = .returned line) ∧
      (Scan stringsReader (NewCustomScanner (stringsNewReader (ascii "a\nb")))).scanner.position <
        (Line (Scan stringsReader
          (NewCustomScanner (stringsNewReader (ascii "a\nb")))).scanner).scanner.position) ∧
    (∃ (calls : List LineCall) (final : CustomScanner StringsReader),
      ∀ fuel : Nat,
        (window (NewCustomScanner (stringsNewReader (ascii "a\nb")))).length +
          (StringsReader.rest (NewCustomScanner (stringsNewReader (ascii "a\nb"))).reader).length +
          1 ≤ fuel →
        usageLoop stringsReader fuel (NewCustomScanner (stringsNewReader (ascii "a\nb"))) [] =
          (.finished calls, final)) := by
  have hlen : (ascii "a\nb").length = 3 := by decide
  have hok : (Scan stringsReader (NewCustomScanner (stringsNewReader (ascii "a\nb")))).ok = true := by
    simp [Scan, NewCustomScanner, stringsReader, StringsReader.Read, stringsNewReader, copy,
      makeBytes_length, hlen]
  have h := usage_loop_progress stringsReader stringsReader_inRange
    (NewCustomScanner (stringsNewReader (ascii "a\nb"))) (Reachable.init _)
  have h2 := h.1 hok
  exact ⟨hok, ⟨h2.2.1, h2.2.2.1⟩, h.2 StringsReader.rest stringsReader_streams⟩

end CustomScanner

end ReadFile

/-! ## Properties of the generic functions and the stack -/

namespace Generic

/-- The loop of `FindIndex` when the value occurs: it returns the offset of the
first element equal to the value, counted from the starting index. -/
theorem FindIndex.loop_of_occurs {T : Type} [BEq T] (value : T) (l : List T) (i : Int)
    (h : ∃ u ∈ l, (u == value) = true) :
    ∃ (k : Nat) (v : T), l[k]? = some v ∧ (v == value) = true ∧
      (∀ (j : Nat) (u : T), j < k → l[j]? = some u → (u == value) = false) ∧
      FindIndex.loop value l i = i + (k : Int) := by
  induction l generalizing i with
  | nil =>
    obtain ⟨u, hu, _⟩ := h
    simp at hu
  | cons v rest ih =>
    by_cases hv : (v == value) = true
    · refine ⟨0, v, by simp, hv, ?_, by simp [FindIndex.loop, hv]⟩
      intro j u hj
      omega
    · have hrest : ∃ u ∈ rest, (u == value) = true := by
        obtain ⟨u, hu, hueq⟩ := h
        rcases List.mem_cons.mp hu with rfl | hu
        · exact absurd hueq hv
        · exact ⟨u, hu, hueq⟩
      obtain ⟨k, w, hk, hw, hfirst, hloop⟩ := ih (i + 1) hrest
      refine ⟨k + 1, w, by simpa using hk, hw, ?_, ?_⟩
      · intro j u hj hju
        cases j with
        | zero =>
          have : u = v := by simpa using hju.symm
          rw [this]
          simpa using hv
        | succ j => exact hfirst j u (by omega) (by simpa using hju)
      · simp only [FindIndex.loop, hv, if_false, Bool.false_eq_true, hloop]
        push_cast
        omega

/-- The loop of `FindIndex` when the value does not occur: `-1`. -/
theorem FindIndex.loop_of_absent {T : Type} [BEq T] (value : T) (l : List T) (i : Int)
    (h : ∀ u ∈ l, (u == value) = false) : FindIndex.loop value l i = -1 := by
  induction l generalizing i with
  | nil => rfl
  | cons v rest ih =>
    have hv : (v == value) = false := h v (List.mem_cons_self _ _)
    simp only [FindIndex.loop, hv, Bool.false_eq_true, if_false]
    exact ih (i + 1) (fun u hu => h u (List.mem_cons_of_mem _ hu))

/-- C14. If the value occurs in the slice, `FindIndex` returns the smallest `i`
with `slice[i] == value`, and `0 ≤ i < len(slice)`; if it does not occur,
`FindIndex` returns `-1`. -/
theorem FindIndex_first_match {T : Type} [BEq T] (slice : List T) (value : T) :
    ((∃ u ∈ slice, (u == value) = true) →
      ∃ (i : Nat) (v : T), slice[i]? = some v ∧ (v == value) = true ∧
        (∀ (j : Nat) (u : T), j < i → slice[j]? = some u → (u == value) = false) ∧
        i < slice.length ∧ FindIndex slice value = (i : Int)) ∧
    ((∀ u ∈ slice, (u == value) = false) → FindIndex slice value = -1) := by
  constructor
  · intro h
    obtain ⟨k, v, hk, hv, hfirst, hloop⟩ := FindIndex.loop_of_occurs value slice 0 h
    refine ⟨k, v, hk, hv, hfirst, ?_, by simpa [FindIndex] using hloop⟩
    by_contra hlen
    rw [List.getElem?_eq_none (by omega)] at hk
    simp at hk
  · intro h
    exact FindIndex.loop_of_absent value slice 0 h

/-- C14 on the demonstration of `main`: `FindIndex([1,2,3,4,5], 3)` is `2`, the
index of the first element equal to `3`; and `FindIndex([1,2,3,4,5], 7)` is
`-1`. -/
theorem FindIndex_first_match_witness :
    FindIndex [1, 2, 3, 4, 5] (3 : Int) = 2 ∧
    (∃ (i : Nat) (v : Int), [1, 2, 3, 4, 5][i]? = some v ∧ (v == 3) = true ∧
      (∀ (j : Nat) (u : Int), j < i → [1, 2, 3, 4, 5][j]? = some u → (u == 3) = false) ∧
      i < [1, 2, 3, 4, (5 : Int)].length ∧ FindIndex [1, 2, 3, 4, 5] (3 : Int) = (i : Int)) ∧
    FindIndex [1, 2, 3, 4, 5] (7 : Int) = -1 :=
  ⟨by decide,
    (FindIndex_first_match [1, 2, 3, 4, 5] (3 : Int)).1 ⟨3, by decide, by decide⟩,
    (FindIndex_first_match [1, 2, 3, 4, 5] (7 : Int)).2 (by decide)⟩

/-- Wrapping keeps the residue modulo `2^w`. -/
theorem wrap_emod (w : Nat) (x : Int) :
    wrap w x % ((2 ^ w : Nat) : Int) = x % ((2 ^ w : Nat) : Int) := by
  unfold wrap
  rw [Int.sub_emod, Int.emod_emod_of_dvd _ (dvd_refl _), ← Int.sub_emod]
  congr 1
  omega

theorem Sum.loop_append (w : Nat) (xs : List Int) (x num : Int) :
    Sum.loop w (xs ++ [x]) num = wrap w (Sum.loop w xs num + x) := by
  induction xs generalizing num with
  | nil => rfl
  | cons v rest ih => exact ih (wrap w (num + v))

theorem Sum.loop_emod (w : Nat) (xs : List Int) (num : Int) :
    Sum.loop w xs num % ((2 ^ w : Nat) : Int) = (num + xs.sum) % ((2 ^ w : Nat) : Int) := by
  induction xs generalizing num with
  | nil => simp [Sum.loop]
  | cons v rest ih =>
    simp only [Sum.loop, List.sum_cons]
    rw [ih, Int.add_emod, wrap_emod, ← Int.add_emod, Int.add_assoc]

/-- C15. For a signed `w`-bit integer type: `Sum([])` is `0`, and
`Sum(xs ++ [x])` is `Sum(xs) + x` with the addition wrapping modulo `2^w`;
so `Sum(xs)` is congruent modulo `2^w` to the mathematical sum of the
elements; and `Sum([1,2,3,4,5])` is `15`. -/
theorem Sum_left_to_right (w : Nat) (xs : List Int) (x : Int) :
    Sum w [] = 0 ∧
    Sum w (xs ++ [x]) = wrap w (Sum w xs + x) ∧
    Sum w xs % ((2 ^ w : Nat) : Int) = xs.sum % ((2 ^ w : Nat) : Int) ∧
    Sum 64 [1, 2, 3, 4, 5] = 15 := by
  refine ⟨rfl, Sum.loop_append w xs x 0, ?_, by decide⟩
  have h := Sum.loop_emod w xs 0
  simpa [Sum] using h

namespace Stack

variable {T : Type}

/-- The method `Pop` on an empty stack. -/
theorem Pop_of_empty [Inhabited T] (s : Stack T) (h : s.items = []) :
    Pop s = { value := default, err := some "stack is empty", stack := s } := by
  have h0 : s.items.length = 0 := by rw [h]; rfl
  simp [Pop, h0]

/-- The method `Pop` on a stack whose items are `init` followed by `last`. -/
theorem Pop_of_append [Inhabited T] (s : Stack T) (init : List T) (last : T)
    (h : s.items = init ++ [last]) :
    Pop s = { value := last, err := none, stack := { items := init } } := by
  have h0 : ¬ s.items.length = 0 := by rw [h]; simp
  simp [Pop, h0, h]

theorem Pop_Push [Inhabited T] (s : Stack T) (x : T) :
    Pop (Push s x) = { value := x, err := none, stack := s } :=
  Pop_of_append (Push s x) s.items x rfl

theorem pushAll_append (s : Stack T) (xs : List T) (x : T) :
    pushAll s (xs ++ [x]) = Push (pushAll s xs) x := by
  simp [pushAll, List.foldl_append]

theorem popN_pushAll [Inhabited T] (s : Stack T) (xs : List T) :
    popN xs.length (pushAll s xs) = (xs.reverse.map (fun x => (x, none)), s) := by
  induction xs using List.reverseRecOn with
  | nil => rfl
  | append_singleton xs x ih =>
    rw [pushAll_append, List.length_append, List.length_singleton]
    simp only [popN, Pop_Push, ih, List.reverse_append, List.reverse_singleton,
      List.singleton_append, List.map_cons]

/-- C12. The stack is last-in-first-out: `Push(x)` followed by `Pop` returns
`(x, nil)` and leaves the items as they were before the `Push`; so pushing
`x1..xn` onto `NewStack()` and popping `n` times returns `xn, ..., x1`, each
with a nil error, and leaves the stack empty; pushing 1, 2, 3 and popping
three times gives 3, 2, 1. -/
theorem Stack_is_lifo [Inhabited T] (s : Stack T) (x : T) (xs : List T) :
    (Pop (Push s x)).value = x ∧
    (Pop (Push s x)).err = none ∧
    (Pop (Push s x)).stack.items = s.items ∧
    popN xs.length (pushAll NewStack xs) = (xs.reverse.map (fun y => (y, none)), NewStack) ∧
    (popN 3 (Push (Push (Push (NewStack : Stack Int) 1) 2) 3)).1 =
      [(3, none), (2, none), (1, none)] := by
  rw [Pop_Push]
  exact ⟨rfl, rfl, rfl, popN_pushAll NewStack xs, by decide⟩

/-- C13. The method `Pop` fails exactly when the stack holds no items: then it
returns the error "stack is empty" with the zero value of `T` and leaves
the stack unchanged; on a non-empty stack it returns a nil error and the
last item, and shortens the stack by exactly that item. `Pop` on
`NewStack()` fails. -/
theorem Pop_fails_iff_empty [Inhabited T] (s : Stack T) :
    ((Pop s).err ≠ none ↔ s.items = []) ∧
    (s.items = [] →
      (Pop s).err = some "stack is empty" ∧ (Pop s).value = default ∧ (Pop s).stack = s) ∧
    (s.items ≠ [] →
      (Pop s).err = none ∧ (Pop s).stack.items.length + 1 = s.items.length ∧
      (Pop s).stack.items ++ [(Pop s).value] = s.items) ∧
    (Pop (NewStack : Stack T)).err = some "stack is empty" := by
  have hempty : s.items = [] →
      (Pop s).err = some "stack is empty" ∧ (Pop s).value = default ∧ (Pop s).stack = s := by
    intro h
    rw [Pop_of_empty s h]
    exact ⟨rfl, rfl, rfl⟩
  have hfull : s.items ≠ [] →
      (Pop s).err = none ∧ (Pop s).stack.items.length + 1 = s.items.length ∧
      (Pop s).stack.items ++ [(Pop s).value] = s.items := by
    intro h
    rcases List.eq_nil_or_concat s.items with h0 | ⟨init, last, hl⟩
    · exact absurd h0 h
    · rw [List.concat_eq_append] at hl
      rw [Pop_of_append s init last hl, hl]
      simp
  refine ⟨?_, hempty, hfull, ?_⟩
  · constructor
    · intro herr
      by_contra hne
      exact herr (hfull hne).1
    · intro h
      rw [(hempty h).1]
      simp
  · rw [Pop_of_empty NewStack rfl]

/-- C13 on the stacks of `main`: `Pop` on `NewStack()` fails and leaves it
empty; `Pop` after `Push(1)` returns 1 with a nil error. -/
theorem Pop_fails_iff_empty_witness :
    (Pop (NewStack : Stack Int)).err = some "stack is empty" ∧
    (Pop (NewStack : Stack Int)).value = 0 ∧
    (Pop (NewStack : Stack Int)).stack = NewStack ∧
    (Pop (Push (NewStack : Stack Int) 1)).err = none ∧
    (Pop (Push (NewStack : Stack Int) 1)).stack.items.length + 1 =
      (Push (NewStack : Stack Int) 1).items.length :=
  ⟨((Pop_fails_iff_empty (NewStack : Stack Int)).2.1 rfl).1,
    ((Pop_fails_iff_empty (NewStack : Stack Int)).2.1 rfl).2.1,
    ((Pop_fails_iff_empty (NewStack : Stack Int)).2.1 rfl).2.2,
    ((Pop_fails_iff_empty (Push (NewStack : Stack Int) 1)).2.2.1 (by decide)).1,
    ((Pop_fails_iff_empty (Push (NewStack : Stack Int) 1)).2.2.1 (by decide)).2.1⟩

end Stack

end Generic

/-! ## The slice demonstration -/

namespace SliceDemo

/-- C17, as the code has it. With `nums1 == [1 2 3 4 5 6]` and
`nums2 == make([]int, 5)`, `nums3 := append(nums1, nums2...)` is
`[1 2 3 4 5 6 0 0 0 0 0]` and has length 11: it is not the slice
`[1 2 3 4 5 6 0 0 0 0]` of length 10 that the comment in `main` announces. -/
theorem nums3_has_eleven_elements :
    nums1Appended = [1, 2, 3, 4, 5, 6] ∧
    nums2 = [0, 0, 0, 0, 0] ∧
    nums3 = [1, 2, 3, 4, 5, 6, 0, 0, 0, 0, 0] ∧
    nums3.length = 11 ∧
    nums3 ≠ [1, 2, 3, 4, 5, 6, 0, 0, 0, 0] ∧
    nums3.length ≠ 10 := by
  decide

end SliceDemo
